import Mathlib

/-! The corpus model and TF-IDF vectoriser of `svm/libsvm.go`.

A shallow embedding of `LoadTraning`, `readline`, `idf`, `NewCorpus`, `Corpus.Vector`,
`Corpus.Label`, `Corpus.Feature` and the classifier that `LibSvmClassifier` and
`LibSvmFromZip` return, followed by the properties proved about them.

Modelling conventions.

* A Go `map[K]V` is a list of entries (`GoMap`); `m[k] = v` is `GoMap.set`, the
  two-valued read `v, ok := m[k]` is `GoMap.get?` and the one-valued read `m[k]`
  is `GoMap.getD` with the zero value of `V`.
* Go leaves the order of `for k, v := range m` unspecified. Every function that
  ranges over a map takes a `RangeOrder`: a rearrangement of the entries of each
  map. The theorems hold for every `RangeOrder`.
* `float64` arithmetic is exact arithmetic in an ordered field `R` (the theorems
  take `R = ℝ`); `math.Log` and `math.Sqrt` are parameters of the definitions so that
  they stay executable. The one operation of the code that can leave the finite
  numbers, the division `v / scalar` of `Corpus.Vector`, returns an `F64`, which
  has the IEEE-754 special values.
* Go `int` indices are `Int`; counters that only count upwards are `Nat`.
* `[]byte` and `string` are `String`. The segmenter of package `sego` is external:
  a `Corpus` holds the function from a text to the texts of its segments' tokens,
  and `NewCorpus` takes the dictionary loader as a parameter.
* A `bufio.Reader` is the list of the results that its calls of `ReadLine` will give.
  `strings.Split` with a separator of one character and `strings.TrimSpace` are
  defined on the characters of the string; `strconv.Atoi` and `strconv.ParseFloat`
  are parameters that give `none` for an error. The calls of `log.Println` have no
  effect on the results and are left out.
* The prediction function of the model is a parameter with a finite result, and the
  conversion `int(x)` is truncation toward zero.
-/

namespace Svm

/-! ## Go maps -/

/-- A Go map, as the list of its entries. -/
abbrev GoMap (K V : Type) := List (K × V)

namespace GoMap

variable {K V : Type} [DecidableEq K]

/-- The read `v, ok := m[k]`. -/
def get? : GoMap K V → K → Option V
  | [], _ => none
  | (k', v) :: t, k => if k' = k then some v else get? t k

/-- The read `m[k]`, which gives the zero value `d` for a missing key. -/
def getD (m : GoMap K V) (k : K) (d : V) : V :=
  (m.get? k).getD d

/-- The write `m[k] = v`: replaces the entry of `k`, or adds one. -/
def set : GoMap K V → K → V → GoMap K V
  | [], k, v => [(k, v)]
  | (k', v') :: t, k, v => if k' = k then (k, v) :: t else (k', v') :: set t k v

/-- The keys of a map. -/
def keys (m : GoMap K V) : List K :=
  m.map Prod.fst

end GoMap

/-- An iteration order for `range` loops: a rearrangement of the entries of every map. -/
structure RangeOrder where
  /-- The entries of the map, in the order the loop visits them. -/
  iter : {K V : Type} → GoMap K V → GoMap K V
  /-- Every entry is visited exactly once. -/
  perm : ∀ {K V : Type} (m : GoMap K V), (iter m).Perm m

/-- Iteration in the order the entries are stored. -/
def RangeOrder.stored : RangeOrder where
  iter := fun m => m
  perm := fun m => List.Perm.refl m

/-- Iteration in the reverse of the order the entries are stored. -/
def RangeOrder.reversed : RangeOrder where
  iter := fun m => m.reverse
  perm := fun m => List.reverse_perm m

/-! ## Floating point values -/

/-- A `float64` result: a finite number or one of the IEEE-754 special values. -/
inductive F64 (R : Type) where
  | fin : R → F64 R
  | posInf : F64 R
  | negInf : F64 R
  | nan : F64 R
  deriving DecidableEq

variable {R : Type} [LinearOrderedField R]

/-- The `float64` division `x / y` of finite `x` by finite non-negative `y`:
`0 / 0` is NaN and a non-zero number divided by `0` is an infinity. -/
def fdiv (x y : R) : F64 R :=
  if y = 0 then
    if x = 0 then F64.nan else if 0 < x then F64.posInf else F64.negInf
  else F64.fin (x / y)

/-- A value is finite. -/
def F64.isFinite : F64 R → Bool
  | F64.fin _ => true
  | _ => false

/-- The `float64` square `w * w`. -/
def F64.sq : F64 R → F64 R
  | F64.fin x => F64.fin (x * x)
  | F64.posInf => F64.posInf
  | F64.negInf => F64.posInf
  | F64.nan => F64.nan

/-- The `float64` sum `a + b`. -/
def F64.add : F64 R → F64 R → F64 R
  | F64.fin x, F64.fin y => F64.fin (x + y)
  | F64.nan, _ => F64.nan
  | _, F64.nan => F64.nan
  | F64.posInf, F64.negInf => F64.nan
  | F64.negInf, F64.posInf => F64.nan
  | F64.posInf, _ => F64.posInf
  | F64.negInf, _ => F64.negInf
  | F64.fin _, F64.posInf => F64.posInf
  | F64.fin _, F64.negInf => F64.negInf

/-- The sum of the squares of the values of a vector, the square of its L2 norm. -/
def sumSquares (vector : GoMap Int (F64 R)) : F64 R :=
  (vector.map fun e => F64.sq e.2).foldl F64.add (F64.fin 0)

/-! ## Training records and `idf` -/

/-- The type `DocTraning`: one training record. -/
structure DocTraning (R : Type) where
  clazz : Int
  lemmas : GoMap Int R

/-- The loop of `idf`: `count++` for every record whose map holds the key. -/
def idfCount (lem : Int) : List (DocTraning R) → R → R
  | [], count => count
  | doc :: rest, count =>
    if (doc.lemmas.get? lem).isSome then idfCount lem rest (count + 1)
    else idfCount lem rest count

/-- The function `idf`. -/
def idf (log : R → R) (lem : Int) (docs : List (DocTraning R)) : R :=
  log (((docs.length : R) + 0.01) / (idfCount lem docs 0 + 0.01))

/-! ## The corpus -/

/-- The type `Corpus`. The field `sgter` gives, for a text, the token texts of the
segments that the segmenter finds in it. -/
structure Corpus (R : Type) where
  classes : GoMap String Int
  features : GoMap String Int
  transIDF : GoMap Int R
  sgter : String → List String

/-- The first loop of `NewCorpus`, from position `i` on: `clsMp[clazz] = i + 1`. -/
def classLoop : List String → Nat → GoMap String Int → GoMap String Int
  | [], _, clsMp => clsMp
  | clazz :: rest, i, clsMp => classLoop rest (i + 1) (clsMp.set clazz ((i : Int) + 1))

/-- The state of the second loop of `NewCorpus`. -/
structure FeatureAcc (R : Type) where
  ftsMp : GoMap String Int
  idfMP : GoMap Int R
  words : List String

/-- The second loop of `NewCorpus`, from position `i` on. -/
def featureLoop (log : R → R) (docs : List (DocTraning R)) :
    List String → Nat → FeatureAcc R → FeatureAcc R
  | [], _, acc => acc
  | ft :: rest, i, acc =>
    featureLoop log docs rest (i + 1)
      { ftsMp := acc.ftsMp.set ft ((i : Int) + 1)
        idfMP := acc.idfMP.set ((i : Int) + 1) (idf log ((i : Int) + 1) docs)
        words := acc.words ++ [ft] }

/-- The function `NewCorpus`. The parameter `loadDictionary` is the external
segmenter: the token texts it finds in a text once loaded with the given words. -/
def NewCorpus (log : R → R) (loadDictionary : List String → String → List String)
    (classes features : List String) (docs : List (DocTraning R)) : Corpus R :=
  let clsMp := classLoop classes 0 []
  let acc := featureLoop log docs features 0 { ftsMp := [], idfMP := [], words := [] }
  { classes := clsMp
    features := acc.ftsMp
    transIDF := acc.idfMP
    sgter := loadDictionary acc.words }

/-! ## The vectoriser -/

/-- The first loop of `Corpus.Vector`: counts the tokens that are feature words. -/
def countLoop (features : GoMap String Int) :
    List String → GoMap Int Nat × Nat → GoMap Int Nat × Nat
  | [], st => st
  | tok :: rest, st =>
    match features.get? tok with
    | some index =>
      countLoop features rest (st.1.set index (st.1.getD index 0 + 1), st.2 + 1)
    | none => countLoop features rest st

/-- The second loop of `Corpus.Vector`, over the entries of `count`. -/
def tfidfLoop (transIDF : GoMap Int R) (total : Nat) :
    List (Int × Nat) → GoMap Int R × R → GoMap Int R × R
  | [], st => st
  | (k, v) :: rest, st =>
    let tf : R := (v : R) / (total : R)
    let tfidf := st.1.set k (tf * transIDF.getD k 0)
    tfidfLoop transIDF total rest (tfidf, st.2 + tfidf.getD k 0 * tfidf.getD k 0)

/-- The third loop of `Corpus.Vector`, over the entries of `tfidf`. -/
def normLoop (scalar : R) : List (Int × R) → GoMap Int (F64 R) → GoMap Int (F64 R)
  | [], vector => vector
  | (k, v) :: rest, vector => normLoop scalar rest (vector.set k (fdiv v scalar))

/-- The maps `count` and the number `total` of `Corpus.Vector` after its first loop. -/
def Corpus.counts (cp : Corpus R) (data : String) : GoMap Int Nat × Nat :=
  countLoop cp.features (cp.sgter data) ([], 0)

/-- The map `tfidf` and the number `sum` of `Corpus.Vector` after its second loop. -/
def Corpus.tfidfs (ρ : RangeOrder) (cp : Corpus R) (data : String) : GoMap Int R × R :=
  tfidfLoop cp.transIDF (cp.counts data).2 (ρ.iter (cp.counts data).1) ([], 0)

/-- The number `scalar` of `Corpus.Vector`. -/
def Corpus.scalar (sqrt : R → R) (ρ : RangeOrder) (cp : Corpus R) (data : String) : R :=
  sqrt (cp.tfidfs ρ data).2

/-- The method `Corpus.Vector`. -/
def Corpus.Vector (sqrt : R → R) (ρ : RangeOrder) (cp : Corpus R) (data : String) :
    GoMap Int (F64 R) :=
  normLoop (cp.scalar sqrt ρ data) (ρ.iter (cp.tfidfs ρ data).1) []

/-! ## Reverse lookups -/

/-- The loop of `Corpus.Label` and `Corpus.Feature`: the key of the first visited
entry whose value is `index`, or the empty string. -/
def scanIndex : List (String × Int) → Int → String
  | [], _ => ""
  | (k, v) :: rest, index => if v = index then k else scanIndex rest index

/-- The method `Corpus.Label`. -/
def Corpus.Label (ρ : RangeOrder) (cp : Corpus R) (index : Int) : String :=
  scanIndex (ρ.iter cp.classes) index

/-- The method `Corpus.Feature`. -/
def Corpus.Feature (ρ : RangeOrder) (cp : Corpus R) (index : Int) : String :=
  scanIndex (ρ.iter cp.features) index

/-! ## Invariants -/

/-- The maps that the loops of `NewCorpus` build: no key twice, no index twice, and
every index between 1 and the number of positions visited. -/
def IndexMap (m : GoMap String Int) (i : Nat) : Prop :=
  m.keys.Nodup ∧ (m.map Prod.snd).Nodup ∧ ∀ e ∈ m, 1 ≤ e.2 ∧ e.2 ≤ (i : Int)

/-! ## Reference quantities of the specification -/

/-- The document frequency of the specification: the number of training records
whose feature map contains the key. -/
def df (lem : Int) (docs : List (DocTraning R)) : Nat :=
  docs.countP fun doc => (doc.lemmas.get? lem).isSome

/-- The number of tokens whose text maps to feature index `k`. -/
def refCount (features : GoMap String Int) (toks : List String) (k : Int) : Nat :=
  toks.countP fun tok => decide (features.get? tok = some k)

/-- The number of tokens whose text is a key of the feature map. -/
def refTotal (features : GoMap String Int) (toks : List String) : Nat :=
  toks.countP fun tok => (features.get? tok).isSome

/-- The tf-idf value of the specification for feature index `k`:
`count[k] / total * idf[k]`. -/
def refTfidf (cp : Corpus R) (toks : List String) (k : Int) : R :=
  (refCount cp.features toks k : R) / (refTotal cp.features toks : R) * cp.transIDF.getD k 0

/-- The feature indices with a non-zero count, each once. -/
def refKeys (features : GoMap String Int) (toks : List String) : List Int :=
  (toks.filterMap fun tok => features.get? tok).dedup

/-- The vector of the specification at feature index `k`: absent when the count of
`k` is zero, and otherwise the tf-idf value divided by the square root of the sum
of the squares of the tf-idf values of the counted indices. -/
def refVector (sqrt : R → R) (cp : Corpus R) (toks : List String) (k : Int) : Option (F64 R) :=
  if 0 < refCount cp.features toks k then
    some (fdiv (refTfidf cp toks k)
      (sqrt ((refKeys cp.features toks).map fun j => refTfidf cp toks j ^ 2).sum))
  else none

/-! ## The concrete scenario of the specification -/

/-- Splits a list of characters at blanks; `cur` holds the current word, reversed. -/
def splitBlanks : List Char → List Char → List String
  | [], cur => if cur = [] then [] else [String.mk cur.reverse]
  | c :: rest, cur =>
    if c = ' ' then
      if cur = [] then splitBlanks rest [] else String.mk cur.reverse :: splitBlanks rest []
    else splitBlanks rest (c :: cur)

/-- A closed-vocabulary segmenter: the blank-separated words of the text that are
dictionary words. -/
def wordSegmenter (words : List String) (text : String) : List String :=
  (splitBlanks text.data []).filter fun w => decide (w ∈ words)

/-- The training records of the scenario: `1 1:0.5 2:0.5` and `2 2:1.0`. -/
def scenarioDocs : List (DocTraning R) :=
  [{ clazz := 1, lemmas := [(1, 0.5), (2, 0.5)] }, { clazz := 2, lemmas := [(2, 1.0)] }]

/-- The corpus of the scenario: classes `spam`, `ham` and features `buy`, `now`. -/
def scenarioCorpus (log : R → R) (loadDictionary : List String → String → List String) :
    Corpus R :=
  NewCorpus log loadDictionary ["spam", "ham"] ["buy", "now"] scenarioDocs

/-! ## Reading and parsing the training records -/

/-- The error of a read: `io.EOF` or another error, with its message. -/
inductive ReadErr where
  | eof : ReadErr
  | other : String → ReadErr
  deriving DecidableEq

/-- One result `line, isPrefix, err` of `bufio.Reader.ReadLine`. -/
structure ReadLineResult where
  line : String
  isPrefix : Bool
  err : Option ReadErr

/-- A `bufio.Reader`: the results that its calls of `ReadLine` give, in order.
Once they are used up, `ReadLine` gives `io.EOF`. -/
abbrev Reader := List ReadLineResult

/-- The reader of a stream of complete lines that ends with a normal end-of-stream. -/
def linesReader (lines : List String) : Reader :=
  lines.map fun l => { line := l, isPrefix := false, err := none }

/-- The loop of `readline`: the line read so far is `ln`. Gives the line, the
error and the reader after the call. -/
def readlineLoop : Reader → String → (String × Option ReadErr) × Reader
  | [], ln => ((ln, some ReadErr.eof), [])
  | r :: rest, ln =>
    if r.isPrefix && r.err.isNone then readlineLoop rest (ln ++ r.line)
    else ((ln ++ r.line, r.err), rest)

/-- The function `readline`. -/
def readline (br : Reader) : (String × Option ReadErr) × Reader :=
  readlineLoop br ""

/-- The pieces of a list of characters between the occurrences of `sep`. -/
def splitChars (sep : Char) : List Char → List (List Char)
  | [] => [[]]
  | c :: rest =>
    if c = sep then [] :: splitChars sep rest
    else
      match splitChars sep rest with
      | [] => [[c]]
      | w :: ws => (c :: w) :: ws

/-- The call `strings.Split(s, sep)` for a separator of one character. -/
def Split (s : String) (sep : Char) : List String :=
  (splitChars sep s.data).map String.mk

/-- The white space of `unicode.IsSpace`. -/
def isSpace (c : Char) : Bool :=
  decide (c.toNat ∈ [9, 10, 11, 12, 13, 32, 0x85, 0xA0, 0x1680, 0x2028, 0x2029, 0x202F,
    0x205F, 0x3000]) || (decide (0x2000 ≤ c.toNat) && decide (c.toNat ≤ 0x200A))

/-- The call `strings.TrimSpace(s)`. -/
def TrimSpace (s : String) : String :=
  String.mk ((s.data.dropWhile isSpace).reverse.dropWhile isSpace).reverse

/-- The inner loop of `LoadTraning`, over `items[1:]`. The parameters `atoi` and
`parseFloat` are `strconv.Atoi` and `strconv.ParseFloat`; they give `none` for an
error. Every `continue` goes on with the rest of the items. -/
def lemmaLoop (atoi : String → Option Int) (parseFloat : String → Option R) :
    List String → GoMap Int R → GoMap Int R
  | [], lemmas => lemmas
  | item :: rest, lemmas =>
    if (TrimSpace item).length = 0 then lemmaLoop atoi parseFloat rest lemmas
    else if (Split (TrimSpace item) ':').length ≠ 2 then lemmaLoop atoi parseFloat rest lemmas
    else
      match atoi ((Split (TrimSpace item) ':').getD 0 "") with
      | none => lemmaLoop atoi parseFloat rest lemmas
      | some index =>
        match parseFloat ((Split (TrimSpace item) ':').getD 1 "") with
        | none => lemmaLoop atoi parseFloat rest lemmas
        | some tfidf => lemmaLoop atoi parseFloat rest (lemmas.set index tfidf)

/-- The body of the loop of `LoadTraning` for one line: the record that is appended
to `docs`, or `none` when the body ends with `continue`. -/
def parseLine (atoi : String → Option Int) (parseFloat : String → Option R) (line : String) :
    Option (DocTraning R) :=
  if (Split line ' ').length < 2 then none
  else
    match atoi ((Split line ' ').getD 0 "") with
    | none => none
    | some label =>
      some { clazz := label, lemmas := lemmaLoop atoi parseFloat (Split line ' ').tail [] }

/-- The loop of `LoadTraning`. Every turn of the loop uses up a result of the
reader or ends the loop, so `fuel` above the length of the reader is never used up. -/
def loadLoop (atoi : String → Option Int) (parseFloat : String → Option R) :
    Nat → Reader → List (DocTraning R) → List (DocTraning R)
  | 0, _, docs => docs
  | fuel + 1, br, docs =>
    match readline br with
    | ((_, some _), _) => docs
    | ((line, none), br') =>
      match parseLine atoi parseFloat line with
      | none => loadLoop atoi parseFloat fuel br' docs
      | some doc => loadLoop atoi parseFloat fuel br' (docs ++ [doc])

/-- The function `LoadTraning`. -/
def LoadTraning (atoi : String → Option Int) (parseFloat : String → Option R) (r : Reader) :
    List (DocTraning R) :=
  loadLoop atoi parseFloat (r.length + 1) r []

/-! ## The classifier -/

/-- The conversion `int(x)` of a `float64`: truncation toward zero. -/
def truncToInt [FloorRing R] (x : R) : Int :=
  if 0 ≤ x then Int.floor x else Int.ceil x

/-- The function that `LibSvmClassifier` and `LibSvmFromZip` return, for the corpus
and the prediction function `Predict` of the model that they loaded. -/
def Corpus.classifier [FloorRing R] (sqrt : R → R) (ρ : RangeOrder) (corpus : Corpus R)
    (Predict : GoMap Int (F64 R) → R) (txt : String) : String :=
  corpus.Label ρ (truncToInt (Predict (corpus.Vector sqrt ρ txt)))

/-! ## Texts of training lines -/

/-- Joins lists of characters with the separator between them. -/
def joinChars (sep : Char) : List (List Char) → List Char
  | [] => []
  | [w] => w
  | w :: ws => w ++ sep :: joinChars sep ws

/-- The text `index:weight` of a pair. -/
def renderPair (p : String × String) : String :=
  String.mk (p.1.data ++ ':' :: p.2.data)

/-- The line made of the given items with one blank between them. -/
def renderItems (items : List String) : String :=
  String.mk (joinChars ' ' (items.map String.data))

/-- The line `label idx1:w1 ... idxn:wn`, from the texts of its parts. -/
def renderLine (label : String) (pairs : List (String × String)) : String :=
  renderItems (label :: pairs.map renderPair)

/-- The map that sends each index of the pairs to its weight, a later pair
replacing an earlier pair of the same index. -/
def mapOfPairs (pairs : List (Int × R)) : GoMap Int R :=
  pairs.foldl (fun m q => m.set q.1 q.2) []

/-- The value of a list of decimal digits, or `none` when a character is not a digit. -/
def digitsValue : List Char → Nat → Option Nat
  | [], acc => some acc
  | c :: rest, acc =>
    if c.isDigit then digitsValue rest (acc * 10 + (c.toNat - 48)) else none

/-- An integer parser for the scenarios: an optional sign and decimal digits,
within the range of a 64-bit integer. -/
def decAtoi (s : String) : Option Int :=
  match s.data with
  | [] => none
  | '-' :: ds =>
    if ds = [] then none
    else (digitsValue ds 0).bind fun n => if n ≤ 2 ^ 63 then some (-(n : Int)) else none
  | '+' :: ds =>
    if ds = [] then none
    else (digitsValue ds 0).bind fun n => if n < 2 ^ 63 then some (n : Int) else none
  | ds => (digitsValue ds 0).bind fun n => if n < 2 ^ 63 then some (n : Int) else none

/-- A number parser for the scenarios: decimal digits, with an optional fraction. -/
def decFloat (s : String) : Option R :=
  match splitChars '.' s.data with
  | [a] => if a = [] then none else (digitsValue a 0).map fun n => (n : R)
  | [a, b] =>
    if a = [] ∨ b = [] then none
    else
      match digitsValue a 0, digitsValue b 0 with
      | some n, some m => some ((n : R) + (m : R) / 10 ^ b.length)
      | _, _ => none
  | _ => none

/-- The pair `index:weight` of a training line: the texts of its two fields, and
the index and the weight that they stand for. -/
structure PairText (S : Type) where
  idxText : String
  weightText : String
  idx : Int
  weight : S

/-- A training line `label idx1:w1 ... idxn:wn`: the text of the label, the label
that it stands for, and the pairs. -/
structure LineText (S : Type) where
  labelText : String
  label : Int
  pairs : List (PairText S)

/-- The text of the line: the label and the pairs, with single blanks between. -/
def LineText.text {S : Type} (l : LineText S) : String :=
  renderLine l.labelText (l.pairs.map fun p => (p.idxText, p.weightText))

/-- The line is well formed: it has at least one pair, the label and the indices
are parsable integers, and the weights are parsable numbers. -/
def LineText.Parses {S : Type} (atoi : String → Option Int) (parseFloat : String → Option S)
    (l : LineText S) : Prop :=
  atoi l.labelText = some l.label ∧ l.pairs ≠ [] ∧
    ∀ p ∈ l.pairs, atoi p.idxText = some p.idx ∧ parseFloat p.weightText = some p.weight

/-- The record of the line: its label, and the map of its pairs. -/
def LineText.record {S : Type} (l : LineText S) : DocTraning S :=
  { clazz := l.label, lemmas := mapOfPairs (l.pairs.map fun p => (p.idx, p.weight)) }

/-- The texts that a function of package `strconv` parses hold no colon and no
white space. -/
def TokenSyntax {A : Type} (parse : String → Option A) : Prop :=
  ∀ s a, parse s = some a → ∀ c ∈ s.data, c ≠ ':' ∧ isSpace c = false

/-- The line `1 3:0.5 3:0.7`, in which the index 3 occurs twice. -/
def repeatedIndexLine : LineText R :=
  { labelText := "1", label := 1,
    pairs := [{ idxText := "3", weightText := "0.5", idx := 3, weight := 0.5 },
              { idxText := "3", weightText := "0.7", idx := 3, weight := 0.7 }] }

/-- The line `1 3:0.5 4:0.7`. -/
def distinctIndexLine : LineText R :=
  { labelText := "1", label := 1,
    pairs := [{ idxText := "3", weightText := "0.5", idx := 3, weight := 0.5 },
              { idxText := "4", weightText := "0.7", idx := 4, weight := 0.7 }] }

/-- The delivery of one line by the reader: chunks of the line that `ReadLine` gives
with `isPrefix` set, and then the result that completes the line. -/
structure Delivery where
  chunks : List String
  last : String

/-- The line that is delivered: the chunks and the last part, joined. -/
def Delivery.line (d : Delivery) : String :=
  d.chunks.foldl (fun ln c => ln ++ c) "" ++ d.last

/-- The results of `ReadLine` for the line. -/
def Delivery.reads (d : Delivery) : Reader :=
  d.chunks.map (fun c => { line := c, isPrefix := true, err := none }) ++
    [{ line := d.last, isPrefix := false, err := none }]

/-- The reader of a stream whose lines are all delivered completely and that ends
with a normal end-of-stream. -/
def chunkReader (ds : List Delivery) : Reader :=
  (ds.map Delivery.reads).flatten

/-- The line `1 3:0.5 4:0.7`, delivered in three parts. -/
def distinctIndexDelivery : Delivery :=
  { chunks := ["1 3:", "0.5 "], last := "4:0.7" }

/-! ## Facts about Go maps -/

namespace GoMap

variable {K V : Type} [DecidableEq K]

theorem get?_set_self (m : GoMap K V) (k : K) (v : V) : (m.set k v).get? k = some v := by
  induction m with
  | nil => simp [set, get?]
  | cons e t ih =>
    obtain ⟨k', v'⟩ := e
    by_cases h : k' = k
    · simp [set, get?, h]
    · simp [set, get?, h, ih]

theorem get?_set_ne (m : GoMap K V) {k j : K} (v : V) (h : k ≠ j) :
    (m.set k v).get? j = m.get? j := by
  induction m with
  | nil => simp [set, get?, h]
  | cons e t ih =>
    obtain ⟨k', v'⟩ := e
    by_cases h' : k' = k
    · subst h'
      simp [set, get?, h]
    · by_cases h'' : k' = j
      · subst h''
        simp [set, get?, h']
      · simp [set, get?, h', h'', ih]

theorem getD_set_self (m : GoMap K V) (k : K) (v d : V) : (m.set k v).getD k d = v := by
  simp [getD, get?_set_self]

theorem get?_eq_none_iff (m : GoMap K V) (k : K) : m.get? k = none ↔ k ∉ m.keys := by
  induction m with
  | nil => simp [get?, keys]
  | cons e t ih =>
    obtain ⟨k', v'⟩ := e
    by_cases h : k' = k
    · simp [get?, keys, h]
    · have h2 : ¬ k = k' := fun e => h e.symm
      simp only [keys] at ih
      simp [get?, keys, h, h2, ih]

theorem get?_isSome_iff (m : GoMap K V) (k : K) : (m.get? k).isSome ↔ k ∈ m.keys := by
  rw [← not_iff_not, ← get?_eq_none_iff]
  cases m.get? k <;> simp

theorem mem_of_get? {m : GoMap K V} {k : K} {v : V} (h : m.get? k = some v) : (k, v) ∈ m := by
  induction m with
  | nil => simp [get?] at h
  | cons e t ih =>
    obtain ⟨k', v'⟩ := e
    by_cases h' : k' = k
    · simp [get?, h'] at h
      simp [h', h]
    · simp [get?, h'] at h
      exact List.mem_cons_of_mem _ (ih h)

theorem get?_of_mem {m : GoMap K V} (nd : m.keys.Nodup) {k : K} {v : V} (h : (k, v) ∈ m) :
    m.get? k = some v := by
  induction m with
  | nil => simp at h
  | cons e t ih =>
    obtain ⟨k', v'⟩ := e
    simp only [keys, List.map_cons, List.nodup_cons] at nd
    rcases List.mem_cons.1 h with h1 | h1
    · simp only [Prod.mk.injEq] at h1
      simp [get?, h1.1, h1.2]
    · have hk : k' ≠ k := by
        rintro rfl
        exact nd.1 (List.mem_map_of_mem Prod.fst h1)
      simp only [get?, hk, if_false]
      exact ih nd.2 h1

theorem keys_set (m : GoMap K V) (k : K) (v : V) :
    (m.set k v).keys = if k ∈ m.keys then m.keys else m.keys ++ [k] := by
  induction m with
  | nil => simp [set, keys]
  | cons e t ih =>
    obtain ⟨k', v'⟩ := e
    simp only [keys] at ih
    by_cases h : k' = k
    · simp [set, keys, h]
    · have h2 : ¬ k = k' := fun e => h e.symm
      by_cases h3 : k ∈ List.map Prod.fst t
      · simp only [h3, if_true] at ih
        have h4 : ∃ x, (k, x) ∈ t := by simpa using h3
        simp [set, keys, h, h2, ih, h4]
      · simp only [h3, if_false] at ih
        have h4 : ¬ ∃ x, (k, x) ∈ t := by simpa using h3
        simp [set, keys, h, h2, ih, h4]

theorem nodup_keys_set {m : GoMap K V} (nd : m.keys.Nodup) (k : K) (v : V) :
    (m.set k v).keys.Nodup := by
  rw [keys_set]
  split
  · exact nd
  · rename_i h
    exact List.Nodup.append nd (List.nodup_singleton k) (by simpa using h)

theorem set_of_not_mem {m : GoMap K V} {k : K} (h : k ∉ m.keys) (v : V) :
    m.set k v = m ++ [(k, v)] := by
  induction m with
  | nil => simp [set]
  | cons e t ih =>
    obtain ⟨k', v'⟩ := e
    simp only [keys, List.map_cons, List.mem_cons, not_or] at h
    have h1 : ¬ k' = k := fun e => h.1 e.symm
    simp [set, h1, ih h.2]

theorem get?_perm {m₁ m₂ : GoMap K V} (p : m₁.Perm m₂) (nd : m₁.keys.Nodup) (k : K) :
    m₁.get? k = m₂.get? k := by
  have nd2 : m₂.keys.Nodup := (List.Perm.nodup_iff (p.map Prod.fst)).1 nd
  cases h : m₁.get? k with
  | none =>
    have h1 := (get?_eq_none_iff m₁ k).1 h
    have h2 : k ∉ m₂.keys := fun hk => h1 ((p.map Prod.fst).mem_iff.2 hk)
    exact ((get?_eq_none_iff m₂ k).2 h2).symm
  | some v =>
    exact (get?_of_mem nd2 (p.mem_iff.1 (mem_of_get? h))).symm

end GoMap

/-! ## Facts about the loops of `Corpus.Vector` -/

theorem countLoop_no_match (features : GoMap String Int) (toks : List String)
    (st : GoMap Int Nat × Nat) (h : ∀ tok ∈ toks, features.get? tok = none) :
    countLoop features toks st = st := by
  induction toks generalizing st with
  | nil => rfl
  | cons tok rest ih =>
    have h1 : features.get? tok = none := h tok (List.mem_cons_self _ _)
    simp only [countLoop, h1]
    exact ih st fun t ht => h t (List.mem_cons_of_mem _ ht)

theorem countLoop_spec (features : GoMap String Int) (toks : List String)
    (st : GoMap Int Nat × Nat) (nd : st.1.keys.Nodup) :
    (countLoop features toks st).1.keys.Nodup ∧
    (countLoop features toks st).2 = st.2 + refTotal features toks ∧
    (∀ k, (countLoop features toks st).1.getD k 0 = st.1.getD k 0 + refCount features toks k) ∧
    (∀ k, k ∈ (countLoop features toks st).1.keys ↔
      k ∈ st.1.keys ∨ 0 < refCount features toks k) := by
  induction toks generalizing st with
  | nil => simp [countLoop, refTotal, refCount, nd]
  | cons tok rest ih =>
    cases hf : features.get? tok with
    | none =>
      simp only [countLoop, hf]
      obtain ⟨h1, h2, h3, h4⟩ := ih st nd
      refine ⟨h1, ?_, ?_, ?_⟩
      · simp [h2, refTotal, hf]
      · intro k
        simp [h3, refCount, hf]
      · intro k
        simp [h4, refCount, hf]
    | some index =>
      simp only [countLoop, hf]
      obtain ⟨h1, h2, h3, h4⟩ :=
        ih (st.1.set index (st.1.getD index 0 + 1), st.2 + 1) (GoMap.nodup_keys_set nd _ _)
      refine ⟨h1, ?_, ?_, ?_⟩
      · simp only [h2, refTotal, List.countP_cons, hf, Option.isSome_some, if_true]
        omega
      · intro k
        rw [h3]
        by_cases hk : index = k
        · subst hk
          simp only [GoMap.getD_set_self, refCount, List.countP_cons, hf, decide_True, if_true]
          omega
        · have hk2 : ¬ (some index = some k) := by simpa using hk
          simp only [GoMap.getD, GoMap.get?_set_ne _ _ hk, refCount, List.countP_cons, hf, hk2,
            decide_False, Bool.false_eq_true, if_false]
          omega
      · intro k
        rw [h4, GoMap.keys_set]
        by_cases hk : index = k
        · subst hk
          simp only [refCount, List.countP_cons, hf, decide_True, if_true]
          constructor
          · intro _
            right
            omega
          · intro _
            left
            split <;> simp_all
        · have hk2 : ¬ (some index = some k) := by simpa using hk
          have hk3 : ¬ k = index := fun e => hk e.symm
          simp only [refCount, List.countP_cons, hf, hk2, decide_False, Bool.false_eq_true,
            if_false, Nat.add_zero]
          split <;> simp [hk3]

theorem tfidfLoop_eq (transIDF : GoMap Int R) (total : Nat) (ord : GoMap Int Nat)
    (st : GoMap Int R × R) (nd : ord.keys.Nodup) (dj : ∀ k ∈ ord.keys, k ∉ st.1.keys) :
    tfidfLoop transIDF total ord st =
      (st.1 ++ ord.map (fun e => (e.1, (e.2 : R) / (total : R) * transIDF.getD e.1 0)),
       st.2 + (ord.map fun e => ((e.2 : R) / (total : R) * transIDF.getD e.1 0) ^ 2).sum) := by
  induction ord generalizing st with
  | nil => simp [tfidfLoop]
  | cons e rest ih =>
    obtain ⟨k, v⟩ := e
    simp only [GoMap.keys, List.map_cons, List.nodup_cons, List.mem_cons, forall_eq_or_imp] at nd dj
    simp only [tfidfLoop, GoMap.getD_set_self]
    rw [ih _ nd.2]
    · rw [GoMap.set_of_not_mem dj.1]
      simp only [List.map_cons, List.sum_cons, List.append_assoc, List.singleton_append,
        Prod.mk.injEq, true_and]
      ring
    · intro j hj
      rw [GoMap.keys_set]
      simp only [GoMap.keys, dj.1, if_false, List.mem_append, List.mem_singleton, not_or]
      refine ⟨dj.2 j hj, ?_⟩
      rintro rfl
      exact nd.1 hj

theorem normLoop_eq (scalar : R) (ord : GoMap Int R) (vector : GoMap Int (F64 R))
    (nd : ord.keys.Nodup) (dj : ∀ k ∈ ord.keys, k ∉ vector.keys) :
    normLoop scalar ord vector = vector ++ ord.map fun e => (e.1, fdiv e.2 scalar) := by
  induction ord generalizing vector with
  | nil => simp [normLoop]
  | cons e rest ih =>
    obtain ⟨k, v⟩ := e
    simp only [GoMap.keys, List.map_cons, List.nodup_cons, List.mem_cons, forall_eq_or_imp] at nd dj
    simp only [normLoop]
    rw [ih _ nd.2]
    · rw [GoMap.set_of_not_mem dj.1]
      simp
    · intro j hj
      rw [GoMap.keys_set]
      simp only [GoMap.keys, dj.1, if_false, List.mem_append, List.mem_singleton, not_or]
      refine ⟨dj.2 j hj, ?_⟩
      rintro rfl
      exact nd.1 hj

theorem GoMap.get?_map_val {K V W : Type} [DecidableEq K] (m : GoMap K V) (g : K → V → W)
    (k : K) : GoMap.get? (m.map fun e => (e.1, g e.1 e.2)) k = (m.get? k).map (g k) := by
  induction m with
  | nil => simp [GoMap.get?]
  | cons e t ih =>
    obtain ⟨k', v'⟩ := e
    by_cases h : k' = k
    · subst h
      simp [GoMap.get?]
    · simp [GoMap.get?, h, ih]

theorem fdiv_of_ne (x : R) {y : R} (h : y ≠ 0) : fdiv x y = F64.fin (x / y) := by
  simp [fdiv, h]

theorem foldl_add_fin (l : List R) (a : R) :
    (l.map F64.fin).foldl F64.add (F64.fin a) = F64.fin (a + l.sum) := by
  induction l generalizing a with
  | nil => simp
  | cons x t ih => simp [F64.add, ih, add_assoc]

theorem sumSquares_fin (l : GoMap Int R) (g : Int × R → R) :
    sumSquares (l.map fun e => (e.1, F64.fin (g e))) = F64.fin (l.map fun e => g e * g e).sum := by
  have h : (List.map (fun e => F64.sq e.2) (l.map fun e => (e.1, F64.fin (g e)))) =
      (l.map fun e => g e * g e).map F64.fin := by
    simp [List.map_map, Function.comp_def, F64.sq]
  rw [sumSquares, h, foldl_add_fin, zero_add]

/-- The map `count` has no repeated key, `total` is the number of tokens that are
feature words, and `count[k]` is the number of tokens of feature index `k`. -/
theorem counts_spec {S : Type} (cp : Corpus S) (data : String) :
    (cp.counts data).1.keys.Nodup ∧
    (cp.counts data).2 = refTotal cp.features (cp.sgter data) ∧
    (∀ k, (cp.counts data).1.getD k 0 = refCount cp.features (cp.sgter data) k) ∧
    (∀ k, k ∈ (cp.counts data).1.keys ↔ 0 < refCount cp.features (cp.sgter data) k) := by
  have h := countLoop_spec cp.features (cp.sgter data) ([], 0) (by simp [GoMap.keys])
  simpa [Corpus.counts, GoMap.getD, GoMap.get?, GoMap.keys] using h

theorem nodup_keys_iter (ρ : RangeOrder) {K V : Type} {m : GoMap K V} (nd : m.keys.Nodup) :
    (ρ.iter m).keys.Nodup :=
  (List.Perm.nodup_iff ((ρ.perm m).map Prod.fst)).2 nd

/-- The result of the second loop of `Corpus.Vector`. -/
theorem tfidfs_eq (ρ : RangeOrder) (cp : Corpus R) (data : String) :
    cp.tfidfs ρ data =
      ((ρ.iter (cp.counts data).1).map (fun e =>
          (e.1, (e.2 : R) / ((cp.counts data).2 : R) * cp.transIDF.getD e.1 0)),
       ((ρ.iter (cp.counts data).1).map fun e =>
          ((e.2 : R) / ((cp.counts data).2 : R) * cp.transIDF.getD e.1 0) ^ 2).sum) := by
  have nd := nodup_keys_iter ρ (counts_spec cp data).1
  rw [Corpus.tfidfs, tfidfLoop_eq _ _ _ _ nd (by simp [GoMap.keys])]
  simp

theorem tfidfs_nodup (ρ : RangeOrder) (cp : Corpus R) (data : String) :
    (cp.tfidfs ρ data).1.keys.Nodup := by
  have nd := nodup_keys_iter ρ (counts_spec cp data).1
  rw [tfidfs_eq]
  simpa [GoMap.keys, List.map_map, Function.comp_def] using nd

/-- The number `sum` is the sum of the squares of the values of `tfidf`. -/
theorem tfidfs_sum (ρ : RangeOrder) (cp : Corpus R) (data : String) :
    (cp.tfidfs ρ data).2 = ((cp.tfidfs ρ data).1.map fun e => e.2 ^ 2).sum := by
  rw [tfidfs_eq]
  simp [List.map_map, Function.comp_def]

/-- The result of the third loop of `Corpus.Vector`. -/
theorem vector_eq (sqrt : R → R) (ρ : RangeOrder) (cp : Corpus R) (data : String) :
    cp.Vector sqrt ρ data =
      (ρ.iter (cp.tfidfs ρ data).1).map fun e => (e.1, fdiv e.2 (cp.scalar sqrt ρ data)) := by
  have nd := nodup_keys_iter ρ (tfidfs_nodup ρ cp data)
  rw [Corpus.Vector, normLoop_eq _ _ _ nd (by simp [GoMap.keys])]
  simp

/-- Reading the vector at a key: the value of `tfidf` there, divided by `scalar`. -/
theorem vector_get? (sqrt : R → R) (ρ : RangeOrder) (cp : Corpus R) (data : String) (k : Int) :
    (cp.Vector sqrt ρ data).get? k =
      ((cp.tfidfs ρ data).1.get? k).map fun t => fdiv t (cp.scalar sqrt ρ data) := by
  rw [vector_eq, GoMap.get?_map_val _ (fun _ t => fdiv t (cp.scalar sqrt ρ data)),
    GoMap.get?_perm (ρ.perm _) (nodup_keys_iter ρ (tfidfs_nodup ρ cp data))]

/-- Claim C1: when no token of the segmentation of the text is a key of the feature
map, `total` is 0 and `Corpus.Vector` returns the empty map, which has no entry and
so no entry that is not finite. -/
theorem vector_empty_of_no_match (sqrt : R → R) (ρ : RangeOrder) (cp : Corpus R)
    (data : String) (h : ∀ tok ∈ cp.sgter data, cp.features.get? tok = none) :
    (cp.counts data).2 = 0 ∧ cp.Vector sqrt ρ data = [] ∧
      ∀ e ∈ cp.Vector sqrt ρ data, e.2.isFinite = true := by
  have hc : cp.counts data = ([], 0) := countLoop_no_match _ _ _ h
  have hi : ∀ {K V : Type}, ρ.iter ([] : GoMap K V) = [] :=
    fun {K V} => List.perm_nil.1 (ρ.perm ([] : GoMap K V))
  have hv : cp.Vector sqrt ρ data = [] := by
    simp [Corpus.Vector, Corpus.tfidfs, hc, hi, tfidfLoop, normLoop]
  refine ⟨by rw [hc], hv, ?_⟩
  rw [hv]
  simp

theorem vector_empty_of_no_match_witness :
    (∀ tok ∈ (scenarioCorpus Real.log wordSegmenter).sgter "sell later",
        (scenarioCorpus Real.log wordSegmenter).features.get? tok = none) ∧
    ((scenarioCorpus Real.log wordSegmenter).counts "sell later").2 = 0 ∧
    (scenarioCorpus Real.log wordSegmenter).Vector Real.sqrt RangeOrder.stored
        "sell later" = [] ∧
    ∀ e ∈ (scenarioCorpus Real.log wordSegmenter).Vector Real.sqrt
        RangeOrder.stored "sell later", e.2.isFinite = true :=
  ⟨by decide, vector_empty_of_no_match Real.sqrt RangeOrder.stored
    (scenarioCorpus Real.log wordSegmenter) "sell later" (by decide)⟩

/-- Reading `count` at a key. -/
theorem counts_get? {S : Type} (cp : Corpus S) (data : String) (k : Int) :
    (cp.counts data).1.get? k =
      if 0 < refCount cp.features (cp.sgter data) k
      then some (refCount cp.features (cp.sgter data) k) else none := by
  obtain ⟨_, _, h3, h4⟩ := counts_spec cp data
  have h3k := h3 k
  have h4k := h4 k
  rw [← GoMap.get?_isSome_iff] at h4k
  cases hg : (cp.counts data).1.get? k with
  | none =>
    rw [hg] at h4k
    have : ¬ 0 < refCount cp.features (cp.sgter data) k := by simpa using h4k
    simp [this]
  | some n =>
    rw [hg] at h4k
    have hp : 0 < refCount cp.features (cp.sgter data) k := by simpa using h4k
    simp only [GoMap.getD, hg, Option.getD_some] at h3k
    simp [hp, h3k]

/-- Reading `tfidf` at a key: the tf-idf value of the specification when the key is
counted, and nothing otherwise. -/
theorem tfidfs_get? (ρ : RangeOrder) (cp : Corpus R) (data : String) (k : Int) :
    (cp.tfidfs ρ data).1.get? k =
      if 0 < refCount cp.features (cp.sgter data) k
      then some (refTfidf cp (cp.sgter data) k) else none := by
  rw [tfidfs_eq]
  simp only []
  rw [GoMap.get?_map_val _ (fun j (v : Nat) =>
      (v : R) / ((cp.counts data).2 : R) * cp.transIDF.getD j 0),
    GoMap.get?_perm (ρ.perm _) (nodup_keys_iter ρ (counts_spec cp data).1), counts_get?]
  split
  · simp [refTfidf, (counts_spec cp data).2.1]
  · simp

/-- When some value of `tfidf` is not zero, `scalar` is positive, the vector holds
the values of `tfidf` divided by `scalar`, and the squares of its values sum to 1. -/
theorem unit_norm_of_nonzero (ρ : RangeOrder) (cp : Corpus ℝ) (data : String)
    (h : ∃ k t, (cp.tfidfs ρ data).1.get? k = some t ∧ t ≠ 0) :
    0 < cp.scalar Real.sqrt ρ data ∧
    sumSquares (cp.Vector Real.sqrt ρ data) = F64.fin 1 ∧
    ∀ k, (cp.Vector Real.sqrt ρ data).get? k =
      ((cp.tfidfs ρ data).1.get? k).map fun t => F64.fin (t / cp.scalar Real.sqrt ρ data) := by
  obtain ⟨k, t, hk, ht⟩ := h
  have hmem : t ^ 2 ∈ (cp.tfidfs ρ data).1.map fun e => e.2 ^ 2 :=
    List.mem_map.2 ⟨(k, t), GoMap.mem_of_get? hk, rfl⟩
  have hnn : ∀ x ∈ (cp.tfidfs ρ data).1.map fun e => e.2 ^ 2, (0 : ℝ) ≤ x := by
    intro x hx
    obtain ⟨e, _, rfl⟩ := List.mem_map.1 hx
    positivity
  have hle : t ^ 2 ≤ (cp.tfidfs ρ data).2 := by
    rw [tfidfs_sum]
    exact List.single_le_sum hnn _ hmem
  have hsum : 0 < (cp.tfidfs ρ data).2 := lt_of_lt_of_le (by positivity) hle
  have hs : 0 < cp.scalar Real.sqrt ρ data := Real.sqrt_pos.2 hsum
  have hs2 : cp.scalar Real.sqrt ρ data ^ 2 = (cp.tfidfs ρ data).2 := Real.sq_sqrt hsum.le
  have hfd : ∀ x : ℝ, fdiv x (cp.scalar Real.sqrt ρ data) =
      F64.fin (x / cp.scalar Real.sqrt ρ data) := fun x => fdiv_of_ne x hs.ne'
  refine ⟨hs, ?_, ?_⟩
  · rw [vector_eq]
    simp only [hfd]
    rw [sumSquares_fin _ (fun e => e.2 / cp.scalar Real.sqrt ρ data)]
    congr 1
    have hp : ((ρ.iter (cp.tfidfs ρ data).1).map fun e => e.2 ^ 2).sum = (cp.tfidfs ρ data).2 := by
      rw [tfidfs_sum]
      exact ((ρ.perm _).map _).sum_eq
    have he : ((ρ.iter (cp.tfidfs ρ data).1).map fun e =>
        e.2 / cp.scalar Real.sqrt ρ data * (e.2 / cp.scalar Real.sqrt ρ data)) =
        (ρ.iter (cp.tfidfs ρ data).1).map fun e =>
          e.2 ^ 2 * ((cp.scalar Real.sqrt ρ data) ^ 2)⁻¹ := by
      apply List.map_congr_left
      intro e _
      field_simp
      ring
    rw [he, List.sum_map_mul_right, hp, ← hs2]
    exact mul_inv_cancel₀ (pow_ne_zero 2 hs.ne')
  · intro j
    rw [vector_get?]
    simp only [hfd]

/-! ## The scenario -/

theorem scenario_features (log : R → R) (ld : List String → String → List String) :
    (scenarioCorpus log ld).features = [("buy", 1), ("now", 2)] := rfl

theorem scenario_classes (log : R → R) (ld : List String → String → List String) :
    (scenarioCorpus log ld).classes = [("spam", 1), ("ham", 2)] := rfl

theorem scenario_sgter (log : R → R) (ld : List String → String → List String) :
    (scenarioCorpus log ld).sgter = ld ["buy", "now"] := rfl

theorem scenario_transIDF (log : R → R) (ld : List String → String → List String) :
    (scenarioCorpus log ld).transIDF =
      [(1, idf log 1 scenarioDocs), (2, idf log 2 scenarioDocs)] := rfl

theorem scenario_idf_one : idf Real.log 1 scenarioDocs = Real.log (2.01 / 1.01) := by
  simp only [idf, scenarioDocs, idfCount, GoMap.get?]
  norm_num

theorem scenario_idf_two : idf Real.log 2 scenarioDocs = 0 := by
  simp only [idf, scenarioDocs, idfCount, GoMap.get?]
  norm_num

theorem scenario_idf_one_pos : 0 < Real.log (2.01 / 1.01) :=
  Real.log_pos (by norm_num)

theorem iter_singleton (ρ : RangeOrder) {K V : Type} (e : K × V) : ρ.iter [e] = [e] :=
  List.perm_singleton.1 (ρ.perm [e])

theorem countLoop_filter (features : GoMap String Int) (toks : List String)
    (st : GoMap Int Nat × Nat) :
    countLoop features toks st =
      countLoop features (toks.filter fun tok => (features.get? tok).isSome) st := by
  induction toks generalizing st with
  | nil => rfl
  | cons tok rest ih =>
    cases hf : features.get? tok with
    | none => simp [countLoop, hf, List.filter_cons, ih]
    | some index => simp [countLoop, hf, List.filter_cons, ih]

/-- The number `sum` does not depend on the order of the second loop. -/
theorem tfidfs_snd (ρ : RangeOrder) (cp : Corpus R) (data : String) :
    (cp.tfidfs ρ data).2 = ((cp.counts data).1.map fun e =>
      ((e.2 : R) / ((cp.counts data).2 : R) * cp.transIDF.getD e.1 0) ^ 2).sum := by
  rw [tfidfs_eq]
  exact ((ρ.perm _).map _).sum_eq

/-- A matched token whose feature has a non-zero entry in the idf table gives a
non-zero value of `tfidf`. -/
theorem tfidf_nonzero_of_match (ρ : RangeOrder) (cp : Corpus R) (data : String)
    (h : ∃ tok ∈ cp.sgter data, ∃ k, cp.features.get? tok = some k ∧ cp.transIDF.getD k 0 ≠ 0) :
    ∃ k t, (cp.tfidfs ρ data).1.get? k = some t ∧ t ≠ 0 := by
  obtain ⟨tok, htok, k, hk, hidf⟩ := h
  have hc : 0 < refCount cp.features (cp.sgter data) k :=
    List.countP_pos_iff.2 ⟨tok, htok, by simp [hk]⟩
  have ht : 0 < refTotal cp.features (cp.sgter data) :=
    List.countP_pos_iff.2 ⟨tok, htok, by simp [hk]⟩
  refine ⟨k, refTfidf cp (cp.sgter data) k, ?_, ?_⟩
  · rw [tfidfs_get?, if_pos hc]
  · have h1 : (refCount cp.features (cp.sgter data) k : R) ≠ 0 := by exact_mod_cast hc.ne'
    have h2 : (refTotal cp.features (cp.sgter data) : R) ≠ 0 := by exact_mod_cast ht.ne'
    exact mul_ne_zero (div_ne_zero h1 h2) hidf

/-! ## The vectoriser: claims C1 to C6 -/

/-- Claim C2, evaluated at the failing input: in the corpus of the scenario the
feature `now` has idf 0, so for the text `now` the number `scalar` is 0 and
`Corpus.Vector` returns a map with one entry, whose value is NaN, and not the
empty map. -/
theorem vector_nan_when_scalar_zero (ρ : RangeOrder) :
    ((scenarioCorpus Real.log wordSegmenter).counts "now").2 = 1 ∧
    (scenarioCorpus Real.log wordSegmenter).scalar Real.sqrt ρ "now" = 0 ∧
    (scenarioCorpus Real.log wordSegmenter).Vector Real.sqrt ρ "now" = [(2, F64.nan)] := by
  have hc : (scenarioCorpus Real.log wordSegmenter).counts "now" = ([(2, 1)], 1) := by decide
  have ht : (scenarioCorpus Real.log wordSegmenter).tfidfs ρ "now" = ([(2, 0)], 0) := by
    simp [Corpus.tfidfs, hc, iter_singleton, tfidfLoop, GoMap.set, GoMap.getD, GoMap.get?,
      scenario_transIDF, scenario_idf_two]
  have hs : (scenarioCorpus Real.log wordSegmenter).scalar Real.sqrt ρ "now" = 0 := by
    simp [Corpus.scalar, ht]
  refine ⟨by rw [hc], hs, ?_⟩
  simp [Corpus.Vector, hs, ht, iter_singleton, normLoop, GoMap.set, fdiv]

/-- Claim C3 as stated fails: in the corpus of the scenario the text `now now`
has two vocabulary matches, and the squares of the values of its vector do not sum
to 1. -/
theorem unit_norm_fails_when_idf_zero :
    1 ≤ ((scenarioCorpus Real.log wordSegmenter).counts "now now").2 ∧
    sumSquares ((scenarioCorpus Real.log wordSegmenter).Vector Real.sqrt RangeOrder.stored
      "now now") ≠ F64.fin 1 := by
  have hc : (scenarioCorpus Real.log wordSegmenter).counts "now now" = ([(2, 2)], 2) := by
    decide
  have ht : (scenarioCorpus Real.log wordSegmenter).tfidfs RangeOrder.stored "now now" =
      ([(2, 0)], 0) := by
    simp [Corpus.tfidfs, hc, RangeOrder.stored, tfidfLoop, GoMap.set, GoMap.getD, GoMap.get?,
      scenario_transIDF, scenario_idf_two]
  have hv : (scenarioCorpus Real.log wordSegmenter).Vector Real.sqrt RangeOrder.stored
      "now now" = [(2, F64.nan)] := by
    rw [Corpus.Vector, Corpus.scalar, ht]
    simp [RangeOrder.stored, normLoop, GoMap.set, fdiv]
  refine ⟨by rw [hc]; decide, ?_⟩
  rw [hv]
  simp [sumSquares, F64.sq, F64.add]

/-- Claim C3, amended: for a corpus built by `NewCorpus` and a text with a matched
token whose feature has a non-zero entry in the idf table, the squares of the values
of the vector sum to 1. -/
theorem newCorpus_vector_unit_norm (ρ : RangeOrder)
    (loadDictionary : List String → String → List String) (classes features : List String)
    (docs : List (DocTraning ℝ)) (data : String)
    (h : ∃ tok ∈ (NewCorpus Real.log loadDictionary classes features docs).sgter data,
      ∃ k, (NewCorpus Real.log loadDictionary classes features docs).features.get? tok = some k ∧
        (NewCorpus Real.log loadDictionary classes features docs).transIDF.getD k 0 ≠ 0) :
    sumSquares ((NewCorpus Real.log loadDictionary classes features docs).Vector Real.sqrt ρ data)
      = F64.fin 1 :=
  (unit_norm_of_nonzero ρ _ data (tfidf_nonzero_of_match ρ _ data h)).2.1

theorem scenario_buy_match :
    ∃ tok ∈ (NewCorpus Real.log wordSegmenter ["spam", "ham"] ["buy", "now"] scenarioDocs).sgter
        "buy now",
      ∃ k, (NewCorpus Real.log wordSegmenter ["spam", "ham"] ["buy", "now"]
          scenarioDocs).features.get? tok = some k ∧
        (NewCorpus Real.log wordSegmenter ["spam", "ham"] ["buy", "now"]
          scenarioDocs).transIDF.getD k 0 ≠ 0 := by
  refine ⟨"buy", by decide, 1, by decide, ?_⟩
  have h : (NewCorpus Real.log wordSegmenter ["spam", "ham"] ["buy", "now"]
      scenarioDocs).transIDF.getD 1 0 = idf Real.log 1 scenarioDocs := rfl
  rw [h, scenario_idf_one]
  exact scenario_idf_one_pos.ne'

theorem newCorpus_vector_unit_norm_witness :
    (∃ tok ∈ (NewCorpus Real.log wordSegmenter ["spam", "ham"] ["buy", "now"] scenarioDocs).sgter
        "buy now",
      ∃ k, (NewCorpus Real.log wordSegmenter ["spam", "ham"] ["buy", "now"]
          scenarioDocs).features.get? tok = some k ∧
        (NewCorpus Real.log wordSegmenter ["spam", "ham"] ["buy", "now"]
          scenarioDocs).transIDF.getD k 0 ≠ 0) ∧
    sumSquares ((NewCorpus Real.log wordSegmenter ["spam", "ham"] ["buy", "now"]
      scenarioDocs).Vector Real.sqrt RangeOrder.reversed "buy now") = F64.fin 1 :=
  ⟨scenario_buy_match,
    newCorpus_vector_unit_norm RangeOrder.reversed wordSegmenter ["spam", "ham"] ["buy", "now"]
      scenarioDocs "buy now" scenario_buy_match⟩

/-- Claim C4: when some tf-idf value that `Corpus.Vector` computes is not zero,
`scalar` is positive, the squares of the values of the returned vector sum to 1, and
the vector has the keys of `tfidf`, each with the value `tfidf[k] / scalar`. -/
theorem vector_unit_norm (ρ : RangeOrder) (cp : Corpus ℝ) (data : String)
    (h : ∃ k t, (cp.tfidfs ρ data).1.get? k = some t ∧ t ≠ 0) :
    0 < cp.scalar Real.sqrt ρ data ∧
    sumSquares (cp.Vector Real.sqrt ρ data) = F64.fin 1 ∧
    ∀ k, (cp.Vector Real.sqrt ρ data).get? k =
      ((cp.tfidfs ρ data).1.get? k).map fun t => F64.fin (t / cp.scalar Real.sqrt ρ data) :=
  unit_norm_of_nonzero ρ cp data h

theorem scenario_tfidf_nonzero :
    ∃ k t, ((scenarioCorpus Real.log wordSegmenter).tfidfs RangeOrder.stored
      "buy buy now").1.get? k = some t ∧ t ≠ 0 := by
  refine ⟨1, 2 / 3 * Real.log (2.01 / 1.01), ?_, ?_⟩
  · have hc : (scenarioCorpus Real.log wordSegmenter).counts "buy buy now" =
        ([(1, 2), (2, 1)], 3) := by decide
    simp [Corpus.tfidfs, hc, RangeOrder.stored, tfidfLoop, GoMap.set, GoMap.getD, GoMap.get?,
      scenario_transIDF, scenario_idf_one]
  · exact mul_ne_zero (by norm_num) scenario_idf_one_pos.ne'

theorem vector_unit_norm_witness :
    (∃ k t, ((scenarioCorpus Real.log wordSegmenter).tfidfs RangeOrder.stored
      "buy buy now").1.get? k = some t ∧ t ≠ 0) ∧
    0 < (scenarioCorpus Real.log wordSegmenter).scalar Real.sqrt RangeOrder.stored
      "buy buy now" ∧
    sumSquares ((scenarioCorpus Real.log wordSegmenter).Vector Real.sqrt RangeOrder.stored
      "buy buy now") = F64.fin 1 ∧
    ∀ k, ((scenarioCorpus Real.log wordSegmenter).Vector Real.sqrt RangeOrder.stored
        "buy buy now").get? k =
      (((scenarioCorpus Real.log wordSegmenter).tfidfs RangeOrder.stored
        "buy buy now").1.get? k).map fun t =>
          F64.fin (t / (scenarioCorpus Real.log wordSegmenter).scalar Real.sqrt
            RangeOrder.stored "buy buy now") :=
  ⟨scenario_tfidf_nonzero,
    vector_unit_norm RangeOrder.stored (scenarioCorpus Real.log wordSegmenter) "buy buy now"
      scenario_tfidf_nonzero⟩

theorem mem_refKeys (features : GoMap String Int) (toks : List String) (k : Int) :
    k ∈ refKeys features toks ↔ 0 < refCount features toks k := by
  simp [refKeys, refCount, List.countP_pos_iff]

/-- The keys of `tfidf` are the counted feature indices. -/
theorem tfidfs_keys_perm (ρ : RangeOrder) (cp : Corpus R) (data : String) :
    (cp.tfidfs ρ data).1.keys.Perm (refKeys cp.features (cp.sgter data)) := by
  have nd : (refKeys cp.features (cp.sgter data)).Nodup := List.nodup_dedup _
  rw [List.perm_ext_iff_of_nodup (tfidfs_nodup ρ cp data) nd]
  intro k
  rw [mem_refKeys, ← GoMap.get?_isSome_iff, tfidfs_get?]
  split <;> simp_all

/-- The number `sum` is the sum of the squares of the tf-idf values of the
specification over the counted feature indices. -/
theorem tfidfs_sum_ref (ρ : RangeOrder) (cp : Corpus R) (data : String) :
    (cp.tfidfs ρ data).2 =
      ((refKeys cp.features (cp.sgter data)).map fun j => refTfidf cp (cp.sgter data) j ^ 2).sum := by
  rw [tfidfs_sum, ← ((tfidfs_keys_perm ρ cp data).map _).sum_eq]
  simp only [GoMap.keys, List.map_map]
  congr 1
  apply List.map_congr_left
  intro e he
  have h1 := GoMap.get?_of_mem (tfidfs_nodup ρ cp data) (show (e.1, e.2) ∈ _ from he)
  rw [tfidfs_get?] at h1
  split at h1
  · simp only [Option.some.injEq] at h1
    simp [h1]
  · simp at h1

/-- Claim C5: `Corpus.Vector` is the TF-IDF vector of the specification. The map
`count` holds, for each feature index, the number of tokens of that index, `total`
is the number of tokens that are feature words, the keys of the result are the
indices with a positive count, each once, and the value at such an index is
`count[k] / total * idf[k]` divided by the square root of the sum of the squares of
these numbers over the counted indices. -/
theorem vector_eq_reference (sqrt : R → R) (ρ : RangeOrder) (cp : Corpus R) (data : String) :
    (∀ k, (cp.counts data).1.getD k 0 = refCount cp.features (cp.sgter data) k) ∧
    (cp.counts data).2 = refTotal cp.features (cp.sgter data) ∧
    (cp.Vector sqrt ρ data).keys.Nodup ∧
    (∀ k, k ∈ (cp.Vector sqrt ρ data).keys ↔ 0 < refCount cp.features (cp.sgter data) k) ∧
    ∀ k, (cp.Vector sqrt ρ data).get? k = refVector sqrt cp (cp.sgter data) k := by
  have hget : ∀ k, (cp.Vector sqrt ρ data).get? k = refVector sqrt cp (cp.sgter data) k := by
    intro k
    rw [vector_get?, tfidfs_get?, refVector, Corpus.scalar, tfidfs_sum_ref]
    split <;> simp
  refine ⟨(counts_spec cp data).2.2.1, (counts_spec cp data).2.1, ?_, ?_, hget⟩
  · have nd := nodup_keys_iter ρ (tfidfs_nodup ρ cp data)
    rw [vector_eq]
    simpa [GoMap.keys, List.map_map, Function.comp_def] using nd
  · intro k
    rw [← GoMap.get?_isSome_iff, hget, refVector]
    split <;> simp_all

/-- Claim C6: in the corpus of the scenario the idf table is
`idf(1) = ln(2.01/1.01)` and `idf(2) = ln(2.01/2.01) = 0`, and for a text whose
matched tokens are `buy`, `buy`, `now` the map `count` is `1 ↦ 2, 2 ↦ 1`, `total`
is 3, and the vector has weight 1 at feature 1 and weight 0 at feature 2 and no
other entry. -/
theorem scenario_vector (ρ : RangeOrder) (loadDictionary : List String → String → List String)
    (data : String)
    (h : ((scenarioCorpus Real.log loadDictionary).sgter data).filter
      (fun tok => ((scenarioCorpus Real.log loadDictionary).features.get? tok).isSome) =
        ["buy", "buy", "now"]) :
    (scenarioCorpus Real.log loadDictionary).transIDF =
      [(1, Real.log (2.01 / 1.01)), (2, Real.log (2.01 / 2.01))] ∧
    idf Real.log 1 scenarioDocs = Real.log (2.01 / 1.01) ∧
    idf Real.log 2 scenarioDocs = Real.log (2.01 / 2.01) ∧
    Real.log (2.01 / 2.01) = 0 ∧
    (scenarioCorpus Real.log loadDictionary).counts data = ([(1, 2), (2, 1)], 3) ∧
    (scenarioCorpus Real.log loadDictionary).scalar Real.sqrt ρ data =
      2 / 3 * Real.log (2.01 / 1.01) ∧
    ((scenarioCorpus Real.log loadDictionary).Vector Real.sqrt ρ data).get? 1 =
      some (F64.fin 1) ∧
    ((scenarioCorpus Real.log loadDictionary).Vector Real.sqrt ρ data).get? 2 =
      some (F64.fin 0) ∧
    ∀ k, k ≠ 1 → k ≠ 2 →
      ((scenarioCorpus Real.log loadDictionary).Vector Real.sqrt ρ data).get? k = none := by
  have hl : Real.log (2.01 / 2.01) = 0 := by norm_num
  have hL := scenario_idf_one_pos
  have hc : (scenarioCorpus Real.log loadDictionary).counts data = ([(1, 2), (2, 1)], 3) := by
    rw [Corpus.counts, countLoop_filter, h]
    rfl
  have hsum : ((scenarioCorpus Real.log loadDictionary).tfidfs ρ data).2 =
      (2 / 3 * Real.log (2.01 / 1.01)) ^ 2 := by
    rw [tfidfs_snd, hc]
    simp [scenario_transIDF, scenario_idf_one, scenario_idf_two, GoMap.getD, GoMap.get?]
  have hs : (scenarioCorpus Real.log loadDictionary).scalar Real.sqrt ρ data =
      2 / 3 * Real.log (2.01 / 1.01) := by
    rw [Corpus.scalar, hsum]
    exact Real.sqrt_sq (by positivity)
  have hs0 : (2 : ℝ) / 3 * Real.log (2.01 / 1.01) ≠ 0 := by positivity
  have hr : ∀ k, refCount (scenarioCorpus Real.log loadDictionary).features
      ((scenarioCorpus Real.log loadDictionary).sgter data) k =
      GoMap.getD [((1 : Int), 2), (2, 1)] k 0 := by
    intro k
    rw [← (counts_spec _ data).2.2.1 k, hc]
  have hrt : refTotal (scenarioCorpus Real.log loadDictionary).features
      ((scenarioCorpus Real.log loadDictionary).sgter data) = 3 := by
    rw [← (counts_spec _ data).2.1, hc]
  have hv : ∀ k, ((scenarioCorpus Real.log loadDictionary).Vector Real.sqrt ρ data).get? k =
      if 0 < GoMap.getD [((1 : Int), 2), (2, 1)] k 0 then
        some (F64.fin (((GoMap.getD [((1 : Int), 2), (2, 1)] k 0 : Nat) : ℝ) / 3 *
          GoMap.getD [((1 : Int), Real.log (2.01 / 1.01)), (2, 0)] k 0 /
            (2 / 3 * Real.log (2.01 / 1.01))))
      else none := by
    intro k
    rw [vector_get?, tfidfs_get?, hs, hr k]
    split
    · simp [refTfidf, hr k, hrt, fdiv_of_ne _ hs0, scenario_transIDF, scenario_idf_one,
        scenario_idf_two]
    · simp
  refine ⟨?_, scenario_idf_one, ?_, hl, hc, hs, ?_, ?_, ?_⟩
  · rw [scenario_transIDF, scenario_idf_one, scenario_idf_two, hl]
  · rw [scenario_idf_two, hl]
  · rw [hv 1]
    simp only [GoMap.getD, GoMap.get?]
    simp
    field_simp
  · rw [hv 2]
    simp [GoMap.getD, GoMap.get?]
  · intro k h1 h2
    rw [hv k]
    have h1' : ¬ (1 : Int) = k := fun e => h1 e.symm
    have h2' : ¬ (2 : Int) = k := fun e => h2 e.symm
    simp [GoMap.getD, GoMap.get?, h1', h2']

theorem scenario_vector_witness :
    ((scenarioCorpus Real.log wordSegmenter).sgter "buy it buy it now").filter
      (fun tok => ((scenarioCorpus Real.log wordSegmenter).features.get? tok).isSome) =
        ["buy", "buy", "now"] ∧
    ((scenarioCorpus Real.log wordSegmenter).Vector Real.sqrt RangeOrder.reversed
      "buy it buy it now").get? 1 = some (F64.fin 1) :=
  ⟨by decide,
    (scenario_vector RangeOrder.reversed wordSegmenter "buy it buy it now" (by decide)).2.2.2.2.2.2.1⟩

/-! ## The function `idf`: claims C7 to C9 -/

theorem idfCount_eq (lem : Int) (docs : List (DocTraning R)) (count : R) :
    idfCount lem docs count = count + (df lem docs : R) := by
  induction docs generalizing count with
  | nil => simp [idfCount, df]
  | cons doc rest ih =>
    by_cases h : (doc.lemmas.get? lem).isSome
    · simp only [df] at ih
      simp [idfCount, df, h, ih, add_assoc, add_comm]
    · simp only [df] at ih
      simp [idfCount, df, h, ih]

theorem df_le_length {S : Type} (lem : Int) (docs : List (DocTraning S)) :
    df lem docs ≤ docs.length :=
  List.countP_le_length _

/-- Claim C7: `idf(f, docs)` is `ln((N + 0.01) / (df + 0.01))`, where `N` is the
number of records and `df` the number of records whose map contains the key `f`.
Only the presence of the key counts: a record adds one to `df` exactly when its map
holds the key, and a record that holds the key with any weight, 0 included, adds
one. -/
theorem idf_eq_log (f : Int) (docs : List (DocTraning ℝ)) :
    idf Real.log f docs =
      Real.log (((docs.length : ℝ) + 0.01) / ((df f docs : ℝ) + 0.01)) ∧
    (∀ doc : DocTraning ℝ,
      df f (doc :: docs) = df f docs + if (doc.lemmas.get? f).isSome then 1 else 0) ∧
    ∀ (clazz : Int) (lemmas : GoMap Int ℝ) (w : ℝ),
      df f ({ clazz := clazz, lemmas := lemmas.set f w } :: docs) = df f docs + 1 := by
  refine ⟨?_, ?_, ?_⟩
  · rw [idf, idfCount_eq, zero_add]
  · intro doc
    by_cases h : (doc.lemmas.get? f).isSome <;> simp [df, h]
  · intro clazz lemmas w
    simp [df, GoMap.get?_set_self]

/-- Claim C8: for record lists of the same length, a feature with the smaller
document frequency has the strictly larger idf. -/
theorem idf_strictAnti (f g : Int) (docs₁ docs₂ : List (DocTraning ℝ))
    (hN : docs₁.length = docs₂.length) (h : df f docs₁ < df g docs₂) :
    idf Real.log g docs₂ < idf Real.log f docs₁ := by
  rw [idf, idf, idfCount_eq, idfCount_eq, zero_add, zero_add, hN]
  have h1 : ((df f docs₁ : ℕ) : ℝ) < (df g docs₂ : ℝ) := by exact_mod_cast h
  have h2 : (0 : ℝ) ≤ (df f docs₁ : ℝ) := Nat.cast_nonneg _
  have h3 : (0 : ℝ) ≤ (docs₂.length : ℝ) := Nat.cast_nonneg _
  apply Real.log_lt_log
  · positivity
  · apply div_lt_div_of_pos_left
    · positivity
    · positivity
    · linarith

theorem idf_strictAnti_witness :
    (scenarioDocs : List (DocTraning ℝ)).length = (scenarioDocs : List (DocTraning ℝ)).length ∧
    df 1 (scenarioDocs : List (DocTraning ℝ)) < df 2 (scenarioDocs : List (DocTraning ℝ)) ∧
    idf Real.log 2 scenarioDocs < idf Real.log 1 scenarioDocs :=
  ⟨rfl, by decide, idf_strictAnti 1 2 scenarioDocs scenarioDocs rfl (by decide)⟩

/-- Claim C9: for every record list, the empty one included, `0 ≤ df ≤ N`, the
counter of `idf` is `df`, the divisor `count + 0.01` is positive, so the division is
a finite number and not a division by zero, the argument of the logarithm is at
least 1, and the result is a non-negative real number. -/
theorem idf_well_defined (f : Int) (docs : List (DocTraning ℝ)) :
    df f docs ≤ docs.length ∧
    idfCount f docs 0 = (df f docs : ℝ) ∧
    0 < idfCount f docs 0 + 0.01 ∧
    fdiv ((docs.length : ℝ) + 0.01) (idfCount f docs 0 + 0.01) =
      F64.fin (((docs.length : ℝ) + 0.01) / (idfCount f docs 0 + 0.01)) ∧
    1 ≤ ((docs.length : ℝ) + 0.01) / (idfCount f docs 0 + 0.01) ∧
    0 ≤ idf Real.log f docs ∧
    idf Real.log f ([] : List (DocTraning ℝ)) = 0 := by
  have hle : (df f docs : ℝ) ≤ (docs.length : ℝ) := by exact_mod_cast df_le_length f docs
  have h0 : (0 : ℝ) ≤ (df f docs : ℝ) := Nat.cast_nonneg _
  have hc : idfCount f docs 0 = (df f docs : ℝ) := by rw [idfCount_eq, zero_add]
  have hpos : 0 < idfCount f docs 0 + 0.01 := by
    rw [hc]
    positivity
  have h1 : 1 ≤ ((docs.length : ℝ) + 0.01) / (idfCount f docs 0 + 0.01) := by
    rw [one_le_div hpos, hc]
    linarith
  refine ⟨df_le_length f docs, hc, hpos, fdiv_of_ne _ hpos.ne', h1, Real.log_nonneg h1, ?_⟩
  simp only [idf, idfCount, List.length_nil]
  norm_num

/-! ## The name and index maps: claim C10 -/

theorem GoMap.mem_set {K V : Type} [DecidableEq K] {m : GoMap K V} {k : K} {v : V} {e : K × V}
    (h : e ∈ m.set k v) : e = (k, v) ∨ e ∈ m := by
  induction m with
  | nil =>
    left
    simpa [GoMap.set] using h
  | cons a t ih =>
    obtain ⟨k', v'⟩ := a
    by_cases hk : k' = k
    · simp only [GoMap.set, hk, if_true, List.mem_cons] at h
      rcases h with h | h
      · exact Or.inl h
      · exact Or.inr (List.mem_cons_of_mem _ h)
    · simp only [GoMap.set, hk, if_false, List.mem_cons] at h
      rcases h with h | h
      · exact Or.inr (h ▸ List.mem_cons_self _ _)
      · rcases ih h with h | h
        · exact Or.inl h
        · exact Or.inr (List.mem_cons_of_mem _ h)

theorem GoMap.nodup_values_set {K V : Type} [DecidableEq K] {m : GoMap K V} {k : K} {v : V}
    (nd : (m.map Prod.snd).Nodup) (hv : ∀ e ∈ m, e.2 ≠ v) :
    ((m.set k v).map Prod.snd).Nodup := by
  induction m with
  | nil => simp [GoMap.set]
  | cons a t ih =>
    obtain ⟨k', v'⟩ := a
    simp only [List.map_cons, List.nodup_cons, List.mem_map, not_exists, not_and] at nd
    have hv' : ∀ e ∈ t, e.2 ≠ v := fun e he => hv e (List.mem_cons_of_mem _ he)
    by_cases hk : k' = k
    · simp only [GoMap.set, hk, if_true, List.map_cons, List.nodup_cons, List.mem_map,
        not_exists, not_and]
      exact ⟨fun e he => hv' e he, nd.2⟩
    · simp only [GoMap.set, hk, if_false, List.map_cons, List.nodup_cons, List.mem_map,
        not_exists, not_and]
      refine ⟨?_, ih nd.2 hv'⟩
      intro e he
      rcases GoMap.mem_set he with h | h
      · rw [h]
        exact fun heq => hv (k', v') (List.mem_cons_self _ _) heq.symm
      · exact nd.1 e h

theorem classLoop_indexMap (names : List String) (i : Nat) (m : GoMap String Int)
    (h : IndexMap m i) : IndexMap (classLoop names i m) (i + names.length) := by
  induction names generalizing i m with
  | nil => simpa [classLoop] using h
  | cons name rest ih =>
    obtain ⟨h1, h2, h3⟩ := h
    have hstep : IndexMap (m.set name ((i : Int) + 1)) (i + 1) := by
      refine ⟨GoMap.nodup_keys_set h1 _ _, GoMap.nodup_values_set h2 ?_, ?_⟩
      · intro e he heq
        have := (h3 e he).2
        omega
      · intro e he
        rcases GoMap.mem_set he with h | h
        · rw [h]
          simp only [Nat.cast_add, Nat.cast_one]
          omega
        · have := h3 e h
          simp only [Nat.cast_add, Nat.cast_one]
          omega
    have := ih (i + 1) _ hstep
    simpa [classLoop, Nat.add_assoc, Nat.add_comm 1] using this

theorem classLoop_keys (names : List String) (i : Nat) (m : GoMap String Int) (name : String) :
    name ∈ (classLoop names i m).keys ↔ name ∈ m.keys ∨ name ∈ names := by
  induction names generalizing i m with
  | nil => simp [classLoop]
  | cons a rest ih =>
    rw [classLoop, ih, GoMap.keys_set]
    by_cases ha : a ∈ m.keys
    · simp only [ha, if_true, List.mem_cons]
      constructor
      · rintro (h | h)
        · exact Or.inl h
        · exact Or.inr (Or.inr h)
      · rintro (h | h | h)
        · exact Or.inl h
        · exact Or.inl (h ▸ ha)
        · exact Or.inr h
    · simp only [ha, if_false, List.mem_append, List.mem_singleton, List.mem_cons]
      tauto

theorem featureLoop_ftsMp (log : R → R) (docs : List (DocTraning R)) (features : List String)
    (i : Nat) (acc : FeatureAcc R) :
    (featureLoop log docs features i acc).ftsMp = classLoop features i acc.ftsMp := by
  induction features generalizing i acc with
  | nil => rfl
  | cons ft rest ih => rw [featureLoop, ih, classLoop]

theorem scanIndex_of_mem {ord : List (String × Int)} (nd : (ord.map Prod.snd).Nodup)
    {k : String} {v : Int} (h : (k, v) ∈ ord) : scanIndex ord v = k := by
  induction ord with
  | nil => simp at h
  | cons a t ih =>
    obtain ⟨k', v'⟩ := a
    simp only [List.map_cons, List.nodup_cons, List.mem_map, not_exists, not_and] at nd
    rcases List.mem_cons.1 h with h1 | h1
    · simp only [Prod.mk.injEq] at h1
      simp [scanIndex, h1.1, h1.2]
    · have hne : ¬ v' = v := by
        rintro rfl
        exact nd.1 (k, v') h1 rfl
      simp only [scanIndex, hne, if_false]
      exact ih nd.2 h1

/-- The scan of an index map, in any order, finds the name of the index it holds. -/
theorem scan_roundtrip (ρ : RangeOrder) {m : GoMap String Int} {i : Nat} (h : IndexMap m i)
    {name : String} (hn : name ∈ m.keys) : scanIndex (ρ.iter m) (m.getD name 0) = name := by
  obtain ⟨v, hv⟩ := Option.isSome_iff_exists.1 ((GoMap.get?_isSome_iff m name).2 hn)
  have hmem : (name, v) ∈ ρ.iter m := (ρ.perm m).mem_iff.2 (GoMap.mem_of_get? hv)
  have nd : ((ρ.iter m).map Prod.snd).Nodup :=
    (List.Perm.nodup_iff ((ρ.perm m).map Prod.snd)).2 h.2.1
  rw [GoMap.getD, hv, Option.getD_some]
  exact scanIndex_of_mem nd hmem

theorem indexMap_nil : IndexMap [] 0 := by
  simp [IndexMap, GoMap.keys]

/-- Claim C10: in a corpus built by `NewCorpus`, `Label` applied to the index of a
class name gives the name back, and `Feature` applied to the index of a feature name
gives the name back, for every input list, repeated names included, and for every
order in which the scan visits the map. -/
theorem label_feature_roundtrip (ρ : RangeOrder) (log : R → R)
    (loadDictionary : List String → String → List String) (classes features : List String)
    (docs : List (DocTraning R)) :
    (∀ name ∈ classes,
      (NewCorpus log loadDictionary classes features docs).Label ρ
        ((NewCorpus log loadDictionary classes features docs).classes.getD name 0) = name) ∧
    (∀ name ∈ features,
      (NewCorpus log loadDictionary classes features docs).Feature ρ
        ((NewCorpus log loadDictionary classes features docs).features.getD name 0) = name) := by
  constructor
  · intro name hn
    have hi := classLoop_indexMap classes 0 [] indexMap_nil
    exact scan_roundtrip ρ hi ((classLoop_keys classes 0 [] name).2 (Or.inr hn))
  · intro name hn
    have hi := classLoop_indexMap features 0 [] indexMap_nil
    have hf : (NewCorpus log loadDictionary classes features docs).features =
        classLoop features 0 [] := featureLoop_ftsMp log docs features 0 _
    rw [Corpus.Feature, hf]
    exact scan_roundtrip ρ hi ((classLoop_keys features 0 [] name).2 (Or.inr hn))

theorem label_feature_roundtrip_witness :
    "ham" ∈ ["spam", "ham", "spam"] ∧
    (NewCorpus Real.log wordSegmenter ["spam", "ham", "spam"] ["buy", "now", "buy"]
      scenarioDocs).classes.getD "spam" 0 = 3 ∧
    (NewCorpus Real.log wordSegmenter ["spam", "ham", "spam"] ["buy", "now", "buy"]
      scenarioDocs).Label RangeOrder.reversed 3 = "spam" ∧
    (NewCorpus Real.log wordSegmenter ["spam", "ham", "spam"] ["buy", "now", "buy"]
      scenarioDocs).Feature RangeOrder.reversed
        ((NewCorpus Real.log wordSegmenter ["spam", "ham", "spam"] ["buy", "now", "buy"]
          scenarioDocs).features.getD "buy" 0) = "buy" :=
  ⟨by decide, by decide,
    (label_feature_roundtrip RangeOrder.reversed Real.log wordSegmenter
      ["spam", "ham", "spam"] ["buy", "now", "buy"] scenarioDocs).1 "spam" (by decide),
    (label_feature_roundtrip RangeOrder.reversed Real.log wordSegmenter
      ["spam", "ham", "spam"] ["buy", "now", "buy"] scenarioDocs).2 "buy" (by decide)⟩

/-! ## The corpus built by `NewCorpus`: claims C11 to C13 -/

theorem scanIndex_of_not_mem {ord : List (String × Int)} {index : Int}
    (h : ∀ e ∈ ord, e.2 ≠ index) : scanIndex ord index = "" := by
  induction ord with
  | nil => rfl
  | cons a t ih =>
    obtain ⟨k, v⟩ := a
    have hne : ¬ v = index := h (k, v) (List.mem_cons_self _ _)
    simp only [scanIndex, hne, if_false]
    exact ih fun e he => h e (List.mem_cons_of_mem _ he)

/-- The scan of an index map, in any order, gives the empty string for an index
outside the positions visited. -/
theorem scan_out_of_range (ρ : RangeOrder) {m : GoMap String Int} {n : Nat} (h : IndexMap m n)
    {index : Int} (hi : index < 1 ∨ (n : Int) < index) : scanIndex (ρ.iter m) index = "" := by
  apply scanIndex_of_not_mem
  intro e he heq
  have := h.2.2 e ((ρ.perm m).mem_iff.1 he)
  omega

theorem newCorpus_classes (log : R → R) (loadDictionary : List String → String → List String)
    (classes features : List String) (docs : List (DocTraning R)) :
    (NewCorpus log loadDictionary classes features docs).classes = classLoop classes 0 [] := rfl

theorem newCorpus_features (log : R → R) (loadDictionary : List String → String → List String)
    (classes features : List String) (docs : List (DocTraning R)) :
    (NewCorpus log loadDictionary classes features docs).features = classLoop features 0 [] :=
  featureLoop_ftsMp log docs features 0 _

theorem classLoop_indexMap_zero (names : List String) :
    IndexMap (classLoop names 0 []) names.length := by
  simpa using classLoop_indexMap names 0 [] indexMap_nil

/-- Claim C11: in a corpus built by `NewCorpus`, `Label(0)` and `Feature(0)` are the
empty string, and so are `Label(i)` for every `i` below 1 or above the number of
classes and `Feature(i)` for every `i` below 1 or above the number of features. -/
theorem label_feature_out_of_range (ρ : RangeOrder) (log : R → R)
    (loadDictionary : List String → String → List String) (classes features : List String)
    (docs : List (DocTraning R)) :
    (NewCorpus log loadDictionary classes features docs).Label ρ 0 = "" ∧
    (NewCorpus log loadDictionary classes features docs).Feature ρ 0 = "" ∧
    (∀ i : Int, i < 1 ∨ (classes.length : Int) < i →
      (NewCorpus log loadDictionary classes features docs).Label ρ i = "") ∧
    (∀ i : Int, i < 1 ∨ (features.length : Int) < i →
      (NewCorpus log loadDictionary classes features docs).Feature ρ i = "") := by
  have hl : ∀ i : Int, i < 1 ∨ (classes.length : Int) < i →
      (NewCorpus log loadDictionary classes features docs).Label ρ i = "" := by
    intro i hi
    rw [Corpus.Label, newCorpus_classes]
    exact scan_out_of_range ρ (classLoop_indexMap_zero classes) hi
  have hf : ∀ i : Int, i < 1 ∨ (features.length : Int) < i →
      (NewCorpus log loadDictionary classes features docs).Feature ρ i = "" := by
    intro i hi
    rw [Corpus.Feature, newCorpus_features]
    exact scan_out_of_range ρ (classLoop_indexMap_zero features) hi
  exact ⟨hl 0 (Or.inl (by decide)), hf 0 (Or.inl (by decide)), hl, hf⟩

theorem label_feature_out_of_range_witness :
    ((3 : Int) < 1 ∨ ((["spam", "ham"].length : Nat) : Int) < 3) ∧
    (scenarioCorpus Real.log wordSegmenter).Label RangeOrder.reversed 3 = "" ∧
    (scenarioCorpus Real.log wordSegmenter).Feature RangeOrder.stored (-1) = "" :=
  ⟨by decide,
    (label_feature_out_of_range RangeOrder.reversed Real.log wordSegmenter ["spam", "ham"]
      ["buy", "now"] scenarioDocs).2.2.1 3 (by decide),
    (label_feature_out_of_range RangeOrder.stored Real.log wordSegmenter ["spam", "ham"]
      ["buy", "now"] scenarioDocs).2.2.2 (-1) (by decide)⟩

theorem classLoop_get?_of_not_mem (names : List String) (i : Nat) (m : GoMap String Int)
    {name : String} (h : name ∉ names) : (classLoop names i m).get? name = m.get? name := by
  induction names generalizing i m with
  | nil => rfl
  | cons a rest ih =>
    simp only [List.mem_cons, not_or] at h
    rw [classLoop, ih _ _ h.2]
    exact GoMap.get?_set_ne _ _ fun e => h.1 e.symm

/-- The loop sends a name to the position of its last occurrence, plus one. -/
theorem classLoop_get?_last (names : List String) (i : Nat) (m : GoMap String Int) (p : Nat)
    {name : String} (hp : names[p]? = some name)
    (hlast : ∀ q, p < q → names[q]? ≠ some name) :
    (classLoop names i m).get? name = some ((i : Int) + (p : Int) + 1) := by
  induction names generalizing i m p with
  | nil => simp at hp
  | cons a rest ih =>
    cases p with
    | zero =>
      simp only [List.getElem?_cons_zero, Option.some.injEq] at hp
      subst hp
      have hnot : a ∉ rest := by
        intro hmem
        obtain ⟨n, hn⟩ := List.mem_iff_getElem?.1 hmem
        exact hlast (n + 1) (Nat.succ_pos n) (by simpa using hn)
      rw [classLoop, classLoop_get?_of_not_mem _ _ _ hnot, GoMap.get?_set_self]
      simp
    | succ p =>
      simp only [List.getElem?_cons_succ] at hp
      have hlast' : ∀ q, p < q → rest[q]? ≠ some name := by
        intro q hq
        have := hlast (q + 1) (Nat.succ_lt_succ hq)
        simpa using this
      rw [classLoop, ih (i + 1) _ p hp hlast']
      congr 1
      push_cast
      ring

/-- When no name is repeated, the indices of the map are exactly 1 to the length. -/
theorem classLoop_values_dense (names : List String) (nd : names.Nodup) (v : Int) :
    v ∈ (classLoop names 0 []).map Prod.snd ↔ 1 ≤ v ∧ v ≤ (names.length : Int) := by
  constructor
  · intro hv
    obtain ⟨e, he, rfl⟩ := List.mem_map.1 hv
    exact (classLoop_indexMap_zero names).2.2 e he
  · rintro ⟨h1, h2⟩
    have hp : (v - 1).toNat < names.length := by omega
    have hlast : ∀ q, (v - 1).toNat < q → names[q]? ≠ some names[(v - 1).toNat] := by
      intro q hq hget
      obtain ⟨hq', heq⟩ := List.getElem?_eq_some.1 hget
      have := (List.Nodup.getElem_inj_iff nd).1 heq
      omega
    have hget := classLoop_get?_last names 0 [] (v - 1).toNat
      (List.getElem?_eq_getElem hp) hlast
    have hmem := GoMap.mem_of_get? hget
    have hval : ((0 : Nat) : Int) + ((v - 1).toNat : Int) + 1 = v := by omega
    rw [hval] at hmem
    exact List.mem_map.2 ⟨_, hmem, rfl⟩

/-- Claim C12 as stated fails: with the class list `spam`, `spam` the name at
position 0 is sent to 2 and not to 1, and no name is sent to 1. -/
theorem index_by_position_fails_on_repeat :
    ["spam", "spam"][0]? = some "spam" ∧
    (NewCorpus Real.log wordSegmenter ["spam", "spam"] ["buy", "now"]
      scenarioDocs).classes.get? "spam" = some 2 ∧
    (1 : Int) ∉ (NewCorpus Real.log wordSegmenter ["spam", "spam"] ["buy", "now"]
      scenarioDocs).classes.map Prod.snd := by
  refine ⟨rfl, by decide, by decide⟩

/-- Claim C12, amended: `NewCorpus` assigns indices by input position, the last
occurrence of a name winning. A position whose name does not occur again later is
sent to the position plus one, in the class map and in the feature map; the indices
of each map are unique and lie between 1 and the length of the list; and when the
list has no repeated name, the indices are exactly the numbers from 1 to its
length. -/
theorem newCorpus_index_by_position (log : R → R)
    (loadDictionary : List String → String → List String) (classes features : List String)
    (docs : List (DocTraning R)) :
    (∀ (p : Nat) (name : String), classes[p]? = some name →
      (∀ q, p < q → classes[q]? ≠ some name) →
      (NewCorpus log loadDictionary classes features docs).classes.get? name =
        some ((p : Int) + 1)) ∧
    (∀ (p : Nat) (name : String), features[p]? = some name →
      (∀ q, p < q → features[q]? ≠ some name) →
      (NewCorpus log loadDictionary classes features docs).features.get? name =
        some ((p : Int) + 1)) ∧
    IndexMap (NewCorpus log loadDictionary classes features docs).classes classes.length ∧
    IndexMap (NewCorpus log loadDictionary classes features docs).features features.length ∧
    (classes.Nodup → ∀ v : Int,
      v ∈ (NewCorpus log loadDictionary classes features docs).classes.map Prod.snd ↔
        1 ≤ v ∧ v ≤ (classes.length : Int)) ∧
    (features.Nodup → ∀ v : Int,
      v ∈ (NewCorpus log loadDictionary classes features docs).features.map Prod.snd ↔
        1 ≤ v ∧ v ≤ (features.length : Int)) := by
  rw [newCorpus_classes, newCorpus_features]
  refine ⟨?_, ?_, classLoop_indexMap_zero classes, classLoop_indexMap_zero features,
    classLoop_values_dense classes, classLoop_values_dense features⟩
  · intro p name hp hlast
    rw [classLoop_get?_last classes 0 [] p hp hlast]
    simp
  · intro p name hp hlast
    rw [classLoop_get?_last features 0 [] p hp hlast]
    simp

theorem newCorpus_index_by_position_witness :
    ["spam", "ham", "spam"][2]? = some "spam" ∧
    (∀ q, 2 < q → ["spam", "ham", "spam"][q]? ≠ some "spam") ∧
    (NewCorpus Real.log wordSegmenter ["spam", "ham", "spam"] ["buy", "now"]
      scenarioDocs).classes.get? "spam" = some ((2 : Nat) + 1 : Int) ∧
    ["buy", "now"].Nodup ∧
    ((2 : Int) ∈ (NewCorpus Real.log wordSegmenter ["spam", "ham", "spam"] ["buy", "now"]
      scenarioDocs).features.map Prod.snd ↔ 1 ≤ (2 : Int) ∧ (2 : Int) ≤ (["buy", "now"].length : Int)) :=
  have h : ∀ q, 2 < q → ["spam", "ham", "spam"][q]? ≠ some "spam" := by
    intro q hq
    have : ["spam", "ham", "spam"].length ≤ q := hq
    simp [List.getElem?_eq_none this]
  ⟨rfl, h,
    (newCorpus_index_by_position Real.log wordSegmenter ["spam", "ham", "spam"] ["buy", "now"]
      scenarioDocs).1 2 "spam" rfl h,
    by decide,
    (newCorpus_index_by_position Real.log wordSegmenter ["spam", "ham", "spam"] ["buy", "now"]
      scenarioDocs).2.2.2.2.2 (by decide) 2⟩

theorem featureLoop_idfMP_get? (log : R → R) (docs : List (DocTraning R))
    (features : List String) (i : Nat) (acc : FeatureAcc R) (k : Int) :
    (featureLoop log docs features i acc).idfMP.get? k =
      if (i : Int) + 1 ≤ k ∧ k ≤ (i : Int) + (features.length : Int)
      then some (idf log k docs) else acc.idfMP.get? k := by
  induction features generalizing i acc with
  | nil =>
    have : ¬ ((i : Int) + 1 ≤ k ∧ k ≤ (i : Int) + ((([] : List String).length : Nat) : Int)) := by
      simp only [List.length_nil, Nat.cast_zero]
      omega
    rw [if_neg this]
    rfl
  | cons ft rest ih =>
    rw [featureLoop, ih]
    simp only [List.length_cons, Nat.cast_add, Nat.cast_one]
    by_cases hk : (i : Int) + 1 = k
    · subst hk
      rw [GoMap.get?_set_self]
      have h1 : ¬ ((i : Int) + 1 + 1 ≤ (i : Int) + 1 ∧ (i : Int) + 1 ≤ (i : Int) + 1 + (rest.length : Int)) := by
        omega
      have h2 : (i : Int) + 1 ≤ (i : Int) + 1 ∧ (i : Int) + 1 ≤ (i : Int) + ((rest.length : Int) + 1) := by
        omega
      rw [if_neg h1, if_pos h2]
    · rw [GoMap.get?_set_ne _ _ hk]
      by_cases hr : (i : Int) + 1 + 1 ≤ k ∧ k ≤ (i : Int) + 1 + (rest.length : Int)
      · have h2 : (i : Int) + 1 ≤ k ∧ k ≤ (i : Int) + ((rest.length : Int) + 1) := by omega
        rw [if_pos hr, if_pos h2]
      · have h2 : ¬ ((i : Int) + 1 ≤ k ∧ k ≤ (i : Int) + ((rest.length : Int) + 1)) := by omega
        rw [if_neg hr, if_neg h2]

theorem featureLoop_idfMP_nodup (log : R → R) (docs : List (DocTraning R))
    (features : List String) (i : Nat) (acc : FeatureAcc R) (nd : acc.idfMP.keys.Nodup) :
    (featureLoop log docs features i acc).idfMP.keys.Nodup := by
  induction features generalizing i acc with
  | nil => exact nd
  | cons ft rest ih =>
    rw [featureLoop]
    exact ih _ _ (GoMap.nodup_keys_set nd _ _)

/-- Reading the idf table of a corpus built by `NewCorpus`. -/
theorem newCorpus_transIDF_get? (log : R → R)
    (loadDictionary : List String → String → List String) (classes features : List String)
    (docs : List (DocTraning R)) (k : Int) :
    (NewCorpus log loadDictionary classes features docs).transIDF.get? k =
      if 1 ≤ k ∧ k ≤ (features.length : Int) then some (idf log k docs) else none := by
  have h := featureLoop_idfMP_get? log docs features 0
    { ftsMp := [], idfMP := [], words := [] } k
  simpa [NewCorpus, GoMap.get?] using h

/-- Claim C13: in a corpus built by `NewCorpus` the idf table has exactly the keys
1 to the number of features, each once, the entry of each such key is `idf` of the
key over the whole record list, and every value of the feature map is a key of the
table. -/
theorem newCorpus_transIDF (log : R → R)
    (loadDictionary : List String → String → List String) (classes features : List String)
    (docs : List (DocTraning R)) :
    (NewCorpus log loadDictionary classes features docs).transIDF.keys.Nodup ∧
    (∀ k : Int, k ∈ (NewCorpus log loadDictionary classes features docs).transIDF.keys ↔
      1 ≤ k ∧ k ≤ (features.length : Int)) ∧
    (∀ k : Int, 1 ≤ k ∧ k ≤ (features.length : Int) →
      (NewCorpus log loadDictionary classes features docs).transIDF.get? k =
        some (idf log k docs)) ∧
    (∀ (name : String) (k : Int),
      (NewCorpus log loadDictionary classes features docs).features.get? name = some k →
      (NewCorpus log loadDictionary classes features docs).transIDF.get? k =
        some (idf log k docs)) := by
  have hget : ∀ k : Int, 1 ≤ k ∧ k ≤ (features.length : Int) →
      (NewCorpus log loadDictionary classes features docs).transIDF.get? k =
        some (idf log k docs) := by
    intro k hk
    rw [newCorpus_transIDF_get?, if_pos hk]
  refine ⟨?_, ?_, hget, ?_⟩
  · exact featureLoop_idfMP_nodup log docs features 0 _ (by simp [GoMap.keys])
  · intro k
    rw [← GoMap.get?_isSome_iff, newCorpus_transIDF_get?]
    split <;> simp_all
  · intro name k hk
    apply hget
    rw [newCorpus_features] at hk
    exact (classLoop_indexMap_zero features).2.2 _ (GoMap.mem_of_get? hk)

theorem newCorpus_transIDF_witness :
    (1 ≤ (2 : Int) ∧ (2 : Int) ≤ ((["buy", "now"].length : Nat) : Int)) ∧
    (scenarioCorpus Real.log wordSegmenter).transIDF.get? 2 =
      some (idf Real.log 2 scenarioDocs) ∧
    (scenarioCorpus Real.log wordSegmenter).features.get? "buy" = some 1 ∧
    (scenarioCorpus Real.log wordSegmenter).transIDF.get? 1 =
      some (idf Real.log 1 scenarioDocs) :=
  ⟨by decide,
    (newCorpus_transIDF Real.log wordSegmenter ["spam", "ham"] ["buy", "now"]
      scenarioDocs).2.2.1 2 (by decide),
    by decide,
    (newCorpus_transIDF Real.log wordSegmenter ["spam", "ham"] ["buy", "now"]
      scenarioDocs).2.2.2 "buy" 1 (by decide)⟩

/-! ## Loading the training records: claims C14 to C18 -/

theorem readline_line (l : String) (rest : Reader) :
    readline ({ line := l, isPrefix := false, err := none } :: rest) = ((l, none), rest) := by
  simp [readline, readlineLoop]

theorem readline_err (r : ReadLineResult) (rest : Reader) {e : ReadErr} (h : r.err = some e) :
    readline (r :: rest) = ((r.line, some e), rest) := by
  simp [readline, readlineLoop, h]

/-- The loop of `LoadTraning` on complete lines followed by the end of the stream:
the records of the lines that are not skipped, in order. -/
theorem loadLoop_lines {S : Type} (atoi : String → Option Int) (parseFloat : String → Option S)
    (lines : List String) (fuel : Nat) (docs : List (DocTraning S))
    (hf : lines.length < fuel) :
    loadLoop atoi parseFloat fuel (linesReader lines) docs =
      docs ++ lines.filterMap (parseLine atoi parseFloat) := by
  induction lines generalizing fuel docs with
  | nil =>
    cases fuel with
    | zero => simp at hf
    | succ fuel => simp [linesReader, loadLoop, readline, readlineLoop]
  | cons l rest ih =>
    cases fuel with
    | zero => simp at hf
    | succ fuel =>
      have hf' : rest.length < fuel := by simpa using hf
      have hr : readline (linesReader (l :: rest)) = ((l, none), linesReader rest) :=
        readline_line l _
      rw [loadLoop, hr]
      cases hp : parseLine atoi parseFloat l with
      | none => simp [ih fuel docs hf', List.filterMap_cons, hp]
      | some doc => simp [ih fuel _ hf', List.filterMap_cons, hp]

/-- The loop of `LoadTraning` on complete lines followed by a failed read: the
records of the lines before the failed read. -/
theorem loadLoop_lines_err {S : Type} (atoi : String → Option Int)
    (parseFloat : String → Option S) (lines : List String) (r : ReadLineResult) (rest : Reader)
    {e : ReadErr} (he : r.err = some e) (fuel : Nat) (docs : List (DocTraning S))
    (hf : lines.length < fuel) :
    loadLoop atoi parseFloat fuel (linesReader lines ++ r :: rest) docs =
      docs ++ lines.filterMap (parseLine atoi parseFloat) := by
  induction lines generalizing fuel docs with
  | nil =>
    cases fuel with
    | zero => simp at hf
    | succ fuel =>
      have hr : readline (linesReader [] ++ r :: rest) = ((r.line, some e), rest) :=
        readline_err r rest he
      rw [loadLoop, hr]
      simp
  | cons l tl ih =>
    cases fuel with
    | zero => simp at hf
    | succ fuel =>
      have hf' : tl.length < fuel := by simpa using hf
      have hr : readline (linesReader (l :: tl) ++ r :: rest) =
          ((l, none), linesReader tl ++ r :: rest) := readline_line l _
      rw [loadLoop, hr]
      cases hp : parseLine atoi parseFloat l with
      | none => simp [ih fuel docs hf', List.filterMap_cons, hp]
      | some doc => simp [ih fuel _ hf', List.filterMap_cons, hp]

/-- The result of `LoadTraning` on a stream of complete lines. -/
theorem loadTraning_lines {S : Type} (atoi : String → Option Int)
    (parseFloat : String → Option S) (lines : List String) :
    LoadTraning atoi parseFloat (linesReader lines) =
      lines.filterMap (parseLine atoi parseFloat) := by
  rw [LoadTraning, loadLoop_lines atoi parseFloat lines _ [] (by simp [linesReader])]
  simp

/-- The result of `LoadTraning` on complete lines followed by a failed read. -/
theorem loadTraning_lines_err {S : Type} (atoi : String → Option Int)
    (parseFloat : String → Option S) (lines : List String) (r : ReadLineResult) (rest : Reader)
    {e : ReadErr} (he : r.err = some e) :
    LoadTraning atoi parseFloat (linesReader lines ++ r :: rest) =
      lines.filterMap (parseLine atoi parseFloat) := by
  rw [LoadTraning, loadLoop_lines_err atoi parseFloat lines r rest he _ []
    (by simp [linesReader]; omega)]
  simp

/-- A skipped line contributes nothing to the result. -/
theorem loadTraning_skip {S : Type} (atoi : String → Option Int)
    (parseFloat : String → Option S) (before after : List String) {line : String}
    (h : parseLine atoi parseFloat line = none) :
    LoadTraning atoi parseFloat (linesReader (before ++ line :: after)) =
      LoadTraning atoi parseFloat (linesReader (before ++ after)) := by
  simp [loadTraning_lines, List.filterMap_append, List.filterMap_cons, h]

/-- A line that is not skipped contributes its record, between the records of the
lines before it and those of the lines after it. -/
theorem loadTraning_keep {S : Type} (atoi : String → Option Int)
    (parseFloat : String → Option S) (before after : List String) {line : String}
    {doc : DocTraning S} (h : parseLine atoi parseFloat line = some doc) :
    LoadTraning atoi parseFloat (linesReader (before ++ line :: after)) =
      LoadTraning atoi parseFloat (linesReader before) ++ doc ::
        LoadTraning atoi parseFloat (linesReader after) := by
  simp [loadTraning_lines, List.filterMap_append, List.filterMap_cons, h]

/-- Claim C15: a line whose first item is not a parsable integer contributes no
record and does not stop the load: the result is the result for the stream without
that line, so the lines after it are still loaded. -/
theorem bad_label_line_dropped {S : Type} (atoi : String → Option Int)
    (parseFloat : String → Option S) (before after : List String) (line : String)
    (h : atoi ((Split line ' ').getD 0 "") = none) :
    LoadTraning atoi parseFloat (linesReader (before ++ line :: after)) =
      LoadTraning atoi parseFloat (linesReader (before ++ after)) := by
  apply loadTraning_skip
  simp only [parseLine, h]
  split <;> rfl

theorem bad_label_line_dropped_witness :
    decAtoi ((Split "abc 1:x" ' ').getD 0 "") = none ∧
    LoadTraning decAtoi (decFloat : String → Option ℝ)
        (linesReader ([] ++ "abc 1:x" :: ["1 1:0.5"])) =
      LoadTraning decAtoi (decFloat : String → Option ℝ) (linesReader ([] ++ ["1 1:0.5"])) :=
  ⟨by decide, bad_label_line_dropped decAtoi decFloat [] ["1 1:0.5"] "abc 1:x" (by decide)⟩

theorem splitChars_of_not_mem (sep : Char) (w : List Char) (h : sep ∉ w) :
    splitChars sep w = [w] := by
  induction w with
  | nil => rfl
  | cons c rest ih =>
    simp only [List.mem_cons, not_or] at h
    have hc : ¬ c = sep := fun e => h.1 e.symm
    simp [splitChars, hc, ih h.2]

theorem splitChars_append (sep : Char) (w rest : List Char) (h : sep ∉ w) :
    splitChars sep (w ++ sep :: rest) = w :: splitChars sep rest := by
  induction w with
  | nil => simp [splitChars]
  | cons c tl ih =>
    simp only [List.mem_cons, not_or] at h
    have hc : ¬ c = sep := fun e => h.1 e.symm
    simp [splitChars, hc, ih h.2]

theorem lemmaLoop_append {S : Type} (atoi : String → Option Int) (parseFloat : String → Option S)
    (items₁ items₂ : List String) (lemmas : GoMap Int S) :
    lemmaLoop atoi parseFloat (items₁ ++ items₂) lemmas =
      lemmaLoop atoi parseFloat items₂ (lemmaLoop atoi parseFloat items₁ lemmas) := by
  induction items₁ generalizing lemmas with
  | nil => rfl
  | cons item rest ih =>
    simp only [List.cons_append, lemmaLoop]
    split
    · exact ih _
    · split
      · exact ih _
      · split
        · exact ih _
        · split
          · exact ih _
          · exact ih _

/-- The inner loop passes over an item that is not a parsable pair. -/
theorem lemmaLoop_bad {S : Type} (atoi : String → Option Int) (parseFloat : String → Option S)
    (bad : String) (rest : List String) (lemmas : GoMap Int S)
    (hbad : (Split (TrimSpace bad) ':').length ≠ 2 ∨
      atoi ((Split (TrimSpace bad) ':').getD 0 "") = none ∨
      parseFloat ((Split (TrimSpace bad) ':').getD 1 "") = none) :
    lemmaLoop atoi parseFloat (bad :: rest) lemmas = lemmaLoop atoi parseFloat rest lemmas := by
  by_cases h1 : (TrimSpace bad).length = 0
  · simp [lemmaLoop, h1]
  · by_cases h2 : (Split (TrimSpace bad) ':').length ≠ 2
    · rw [lemmaLoop, if_neg h1, if_pos h2]
    · cases ha : atoi ((Split (TrimSpace bad) ':').getD 0 "") with
      | none =>
        rw [lemmaLoop, if_neg h1, if_neg h2]
        simp only [ha]
      | some index =>
        cases hp : parseFloat ((Split (TrimSpace bad) ':').getD 1 "") with
        | none =>
          rw [lemmaLoop, if_neg h1, if_neg h2]
          simp only [ha, hp]
        | some w =>
          rcases hbad with h | h | h
          · exact absurd h h2
          · rw [ha] at h
            cases h
          · rw [hp] at h
            cases h

/-- Claim C16 as stated fails: the line `1 1:x 2:0.5` holds the unparsable pair
`1:x`, and `LoadTraning` still produces a record for it, with the entry of the
pair `2:0.5`. -/
theorem bad_pair_line_not_skipped :
    (LoadTraning decAtoi (decFloat : String → Option ℝ)
      (linesReader ["1 1:x 2:0.5"])).map (fun doc => (doc.clazz, doc.lemmas.keys)) =
      [(1, [2])] := by
  decide

/-- Claim C16, amended: an unparsable `index:weight` pair is skipped on its own. A
line whose label parses still produces a record, with the label and with the
entries that the other items of the line give. -/
theorem bad_pair_skipped_alone {S : Type} (atoi : String → Option Int)
    (parseFloat : String → Option S) (before after : List String) (line labelText : String)
    (pre post : List String) (bad : String) (label : Int)
    (hs : Split line ' ' = labelText :: (pre ++ bad :: post))
    (hl : atoi labelText = some label)
    (hbad : (Split (TrimSpace bad) ':').length ≠ 2 ∨
      atoi ((Split (TrimSpace bad) ':').getD 0 "") = none ∨
      parseFloat ((Split (TrimSpace bad) ':').getD 1 "") = none) :
    LoadTraning atoi parseFloat (linesReader (before ++ line :: after)) =
      LoadTraning atoi parseFloat (linesReader before) ++
        { clazz := label, lemmas := lemmaLoop atoi parseFloat (pre ++ post) [] } ::
          LoadTraning atoi parseFloat (linesReader after) := by
  apply loadTraning_keep
  have hlen : ¬ (labelText :: (pre ++ bad :: post)).length < 2 := by
    simp only [List.length_cons, List.length_append]
    omega
  simp only [parseLine, hs, hlen, if_false, List.getD_cons_zero, hl, List.tail_cons]
  rw [lemmaLoop_append, lemmaLoop_bad atoi parseFloat bad post _ hbad, ← lemmaLoop_append]

theorem bad_pair_skipped_alone_witness :
    Split "1 1:x 2:0.5" ' ' = "1" :: ([] ++ "1:x" :: ["2:0.5"]) ∧
    decAtoi "1" = some 1 ∧
    LoadTraning decAtoi (decFloat : String → Option ℝ)
        (linesReader ([] ++ "1 1:x 2:0.5" :: ["2 2:1.0"])) =
      LoadTraning decAtoi (decFloat : String → Option ℝ) (linesReader []) ++
        { clazz := 1, lemmas := lemmaLoop decAtoi decFloat ([] ++ ["2:0.5"]) [] } ::
          LoadTraning decAtoi (decFloat : String → Option ℝ) (linesReader ["2 2:1.0"]) :=
  ⟨by decide, by decide,
    bad_pair_skipped_alone decAtoi decFloat [] ["2 2:1.0"] "1 1:x 2:0.5" "1" [] ["2:0.5"]
      "1:x" 1 (by decide) (by decide) (Or.inr (Or.inr rfl))⟩

/-- Claim C17 as stated fails: the line `1 `, a label followed by a blank, is not
skipped. It produces a record with the label and no entry. -/
theorem label_with_blank_not_skipped :
    LoadTraning decAtoi (decFloat : String → Option ℝ) (linesReader ["1 "]) =
      [{ clazz := 1, lemmas := [] }] := by
  rfl

/-- Claim C17, amended: a line without a blank, such as the empty line or a bare
label, has fewer than two items, is skipped and produces no record, and the other
lines are still processed. -/
theorem line_without_blank_skipped {S : Type} (atoi : String → Option Int)
    (parseFloat : String → Option S) (before after : List String) (line : String)
    (h : ' ' ∉ line.data) :
    (Split line ' ').length < 2 ∧
    LoadTraning atoi parseFloat (linesReader (before ++ line :: after)) =
      LoadTraning atoi parseFloat (linesReader (before ++ after)) := by
  have hlen : (Split line ' ').length < 2 := by
    simp [Split, splitChars_of_not_mem _ _ h]
  refine ⟨hlen, loadTraning_skip atoi parseFloat before after ?_⟩
  simp [parseLine, hlen]

theorem line_without_blank_skipped_witness :
    ' ' ∉ "1".data ∧
    (Split "1" ' ').length < 2 ∧
    LoadTraning decAtoi (decFloat : String → Option ℝ)
        (linesReader (["1 1:0.5"] ++ "1" :: ["2 2:1.0"])) =
      LoadTraning decAtoi (decFloat : String → Option ℝ)
        (linesReader (["1 1:0.5"] ++ ["2 2:1.0"])) :=
  ⟨by decide, line_without_blank_skipped decAtoi decFloat ["1 1:0.5"] ["2 2:1.0"] "1"
    (by decide)⟩

/-- Claim C18 as stated fails: after a read error `LoadTraning` returns the record
of the line read before the error. The result is the one it returns when the stream
ends normally after that line, so it shows no error to the caller. -/
theorem read_error_not_surfaced :
    LoadTraning decAtoi (decFloat : String → Option ℝ)
        [{ line := "1 1:0.5", isPrefix := false, err := none },
         { line := "", isPrefix := false, err := some (ReadErr.other "read failed") },
         { line := "2 2:1.0", isPrefix := false, err := none }] =
      LoadTraning decAtoi (decFloat : String → Option ℝ) (linesReader ["1 1:0.5"]) ∧
    (LoadTraning decAtoi (decFloat : String → Option ℝ) (linesReader ["1 1:0.5"])).length = 1 := by
  refine ⟨rfl, by decide⟩

/-- Claim C18, amended: when a read fails with an error other than the end of the
stream, `LoadTraning` stops reading and returns the records of the lines read before
the failed read, which is the list it returns when the stream ends normally at that
point; the reads after the failed one are not used. -/
theorem read_error_stops_load {S : Type} (atoi : String → Option Int)
    (parseFloat : String → Option S) (lines : List String) (r : ReadLineResult) (rest : Reader)
    (msg : String) (he : r.err = some (ReadErr.other msg)) :
    LoadTraning atoi parseFloat (linesReader lines ++ r :: rest) =
      LoadTraning atoi parseFloat (linesReader lines) ∧
    LoadTraning atoi parseFloat (linesReader lines ++ r :: rest) =
      lines.filterMap (parseLine atoi parseFloat) := by
  rw [loadTraning_lines_err atoi parseFloat lines r rest he, loadTraning_lines]
  exact ⟨rfl, rfl⟩

theorem read_error_stops_load_witness :
    ({ line := "", isPrefix := false, err := some (ReadErr.other "read failed") } :
        ReadLineResult).err = some (ReadErr.other "read failed") ∧
    LoadTraning decAtoi (decFloat : String → Option ℝ)
        (linesReader ["1 1:0.5"] ++
          { line := "", isPrefix := false, err := some (ReadErr.other "read failed") } ::
            linesReader ["2 2:1.0"]) =
      LoadTraning decAtoi (decFloat : String → Option ℝ) (linesReader ["1 1:0.5"]) :=
  ⟨rfl, (read_error_stops_load decAtoi decFloat ["1 1:0.5"]
    { line := "", isPrefix := false, err := some (ReadErr.other "read failed") }
    (linesReader ["2 2:1.0"]) "read failed" rfl).1⟩

theorem splitChars_joinChars (sep : Char) (parts : List (List Char)) (hne : parts ≠ [])
    (h : ∀ w ∈ parts, sep ∉ w) : splitChars sep (joinChars sep parts) = parts := by
  induction parts with
  | nil => exact absurd rfl hne
  | cons w ws ih =>
    cases ws with
    | nil => simpa [joinChars] using splitChars_of_not_mem sep w (h w (List.mem_cons_self _ _))
    | cons w' ws' =>
      have hj : joinChars sep (w :: w' :: ws') = w ++ sep :: joinChars sep (w' :: ws') := rfl
      rw [hj, splitChars_append sep w _ (h w (List.mem_cons_self _ _)),
        ih (List.cons_ne_nil _ _) fun x hx => h x (List.mem_cons_of_mem _ hx)]

theorem split_renderItems (items : List String) (hne : items ≠ [])
    (h : ∀ s ∈ items, ' ' ∉ s.data) : Split (renderItems items) ' ' = items := by
  have h1 : splitChars ' ' (joinChars ' ' (items.map String.data)) = items.map String.data := by
    apply splitChars_joinChars
    · simpa using hne
    · intro w hw
      obtain ⟨s, hs, rfl⟩ := List.mem_map.1 hw
      exact h s hs
  simp only [Split, renderItems, h1, List.map_map]
  exact List.map_id' _

theorem isSpace_blank : isSpace ' ' = true := by decide

theorem isSpace_colon : isSpace ':' = false := by decide

theorem dropWhile_of_all_false {α : Type} (p : α → Bool) (l : List α)
    (h : ∀ a ∈ l, p a = false) : l.dropWhile p = l := by
  cases l with
  | nil => rfl
  | cons a t => simp [List.dropWhile, h a (List.mem_cons_self _ _)]

theorem trimSpace_of_no_space (s : String) (h : ∀ c ∈ s.data, isSpace c = false) :
    TrimSpace s = s := by
  have h1 : s.data.dropWhile isSpace = s.data := dropWhile_of_all_false _ _ h
  have h2 : s.data.reverse.dropWhile isSpace = s.data.reverse :=
    dropWhile_of_all_false _ _ fun c hc => h c (List.mem_reverse.1 hc)
  simp [TrimSpace, h1, h2]

/-- The inner loop on the texts of parsable pairs: every pair is written to the
map, in order. -/
theorem lemmaLoop_pairs {S : Type} (atoi : String → Option Int) (parseFloat : String → Option S)
    (hA : TokenSyntax atoi) (hF : TokenSyntax parseFloat) (pairs : List (PairText S))
    (hp : ∀ p ∈ pairs, atoi p.idxText = some p.idx ∧ parseFloat p.weightText = some p.weight)
    (lemmas : GoMap Int S) :
    lemmaLoop atoi parseFloat
        ((pairs.map fun p => (p.idxText, p.weightText)).map renderPair) lemmas =
      (pairs.map fun p => (p.idx, p.weight)).foldl (fun m q => m.set q.1 q.2) lemmas := by
  induction pairs generalizing lemmas with
  | nil => rfl
  | cons p rest ih =>
    obtain ⟨ha, hf⟩ := hp p (List.mem_cons_self _ _)
    have hsp : ∀ c ∈ (renderPair (p.idxText, p.weightText)).data, isSpace c = false := by
      intro c hc
      simp only [renderPair, List.mem_append, List.mem_cons] at hc
      rcases hc with hc | hc | hc
      · exact (hA _ _ ha c hc).2
      · rw [hc]
        exact isSpace_colon
      · exact (hF _ _ hf c hc).2
    have htrim := trimSpace_of_no_space _ hsp
    have hlen : ¬ (renderPair (p.idxText, p.weightText)).length = 0 := by
      show ¬ (p.idxText.data ++ ':' :: p.weightText.data).length = 0
      rw [List.length_append, List.length_cons]
      omega
    have hsplit : Split (renderPair (p.idxText, p.weightText)) ':' =
        [p.idxText, p.weightText] := by
      have h1 : ':' ∉ p.idxText.data := fun hc => (hA _ _ ha _ hc).1 rfl
      have h2 : ':' ∉ p.weightText.data := fun hc => (hF _ _ hf _ hc).1 rfl
      show (splitChars ':' (p.idxText.data ++ ':' :: p.weightText.data)).map String.mk = _
      rw [splitChars_append _ _ _ h1, splitChars_of_not_mem _ _ h2]
      rfl
    simp only [List.map_cons, List.foldl_cons, lemmaLoop, htrim, hlen, if_false, hsplit]
    simp only [List.length_cons, List.length_nil, ne_eq, not_true_eq_false, if_false,
      List.getD_cons_zero, List.getD_cons_succ, ha, hf]
    exact ih (fun q hq => hp q (List.mem_cons_of_mem _ hq)) _

/-- The body of the loop of `LoadTraning` on a well-formed line gives its record. -/
theorem parseLine_text {S : Type} (atoi : String → Option Int) (parseFloat : String → Option S)
    (hA : TokenSyntax atoi) (hF : TokenSyntax parseFloat) (l : LineText S)
    (hl : l.Parses atoi parseFloat) :
    parseLine atoi parseFloat l.text = some l.record := by
  obtain ⟨hlab, hne, hp⟩ := hl
  have hblank : ∀ s ∈ l.labelText :: (l.pairs.map fun p => (p.idxText, p.weightText)).map
      renderPair, ' ' ∉ s.data := by
    intro s hs hc
    rcases List.mem_cons.1 hs with hs | hs
    · rw [hs] at hc
      have := (hA _ _ hlab _ hc).2
      rw [isSpace_blank] at this
      cases this
    · simp only [List.map_map, List.mem_map, Function.comp_apply] at hs
      obtain ⟨p, hpm, rfl⟩ := hs
      obtain ⟨ha, hf⟩ := hp p hpm
      simp only [renderPair, List.mem_append, List.mem_cons] at hc
      rcases hc with hc | hc | hc
      · have := (hA _ _ ha _ hc).2
        rw [isSpace_blank] at this
        cases this
      · exact absurd hc (by decide)
      · have := (hF _ _ hf _ hc).2
        rw [isSpace_blank] at this
        cases this
  have hsplit : Split l.text ' ' =
      l.labelText :: (l.pairs.map fun p => (p.idxText, p.weightText)).map renderPair :=
    split_renderItems _ (List.cons_ne_nil _ _) hblank
  have hlen : ¬ (l.labelText :: (l.pairs.map fun p => (p.idxText, p.weightText)).map
      renderPair).length < 2 := by
    have : 0 < l.pairs.length := List.length_pos.2 hne
    simp only [List.length_cons, List.length_map]
    omega
  simp only [parseLine, hsplit, hlen, if_false, List.getD_cons_zero, hlab, List.tail_cons]
  rw [lemmaLoop_pairs atoi parseFloat hA hF l.pairs hp]
  rfl

theorem foldl_set_get?_of_ne {S : Type} (post : List (Int × S)) (m : GoMap Int S) (k : Int)
    (h : ∀ r ∈ post, r.1 ≠ k) :
    (post.foldl (fun m q => m.set q.1 q.2) m).get? k = m.get? k := by
  induction post generalizing m with
  | nil => rfl
  | cons r rest ih =>
    rw [List.foldl_cons, ih _ fun x hx => h x (List.mem_cons_of_mem _ hx)]
    exact GoMap.get?_set_ne _ _ (h r (List.mem_cons_self _ _))

/-- The map of the pairs sends an index to the weight of the last pair with it. -/
theorem mapOfPairs_get?_last {S : Type} (pre post : List (Int × S)) (q : Int × S)
    (h : ∀ r ∈ post, r.1 ≠ q.1) : (mapOfPairs (pre ++ q :: post)).get? q.1 = some q.2 := by
  rw [mapOfPairs, List.foldl_append, List.foldl_cons, foldl_set_get?_of_ne post _ _ h]
  exact GoMap.get?_set_self _ _ _

theorem mapOfPairs_keys {S : Type} (pairs : List (Int × S)) (m : GoMap Int S) (k : Int) :
    k ∈ GoMap.keys (pairs.foldl (fun m q => m.set q.1 q.2) m) ↔
      k ∈ m.keys ∨ k ∈ pairs.map Prod.fst := by
  induction pairs generalizing m with
  | nil => simp
  | cons r rest ih =>
    rw [List.foldl_cons, ih, GoMap.keys_set]
    by_cases hr : r.1 ∈ m.keys
    · simp only [hr, if_true, List.map_cons, List.mem_cons]
      constructor
      · rintro (h | h)
        · exact Or.inl h
        · exact Or.inr (Or.inr h)
      · rintro (h | h | h)
        · exact Or.inl h
        · exact Or.inl (h ▸ hr)
        · exact Or.inr h
    · simp only [hr, if_false, List.mem_append, List.mem_singleton, List.map_cons, List.mem_cons]
      tauto

theorem isDigit_plain (c : Char) (h : c.isDigit = true) : c ≠ ':' ∧ isSpace c = false := by
  have h1 : 48 ≤ c.toNat ∧ c.toNat ≤ 57 := by
    simp [Char.isDigit] at h
    exact h
  constructor
  · rintro rfl
    have : (':' : Char).toNat = 58 := by decide
    omega
  · simp only [isSpace, List.mem_cons, List.mem_singleton, Bool.or_eq_false_iff,
      decide_eq_false_iff_not, Bool.and_eq_false_imp, decide_eq_true_eq, List.not_mem_nil, or_false]
    constructor
    · omega
    · intro _
      omega

theorem digitsValue_isDigit (ds : List Char) (acc n : Nat) (h : digitsValue ds acc = some n) :
    ∀ c ∈ ds, c.isDigit = true := by
  induction ds generalizing acc with
  | nil => simp
  | cons d rest ih =>
    by_cases hd : d.isDigit = true
    · simp only [digitsValue, hd, if_true] at h
      intro c hc
      rcases List.mem_cons.1 hc with hc | hc
      · rw [hc]
        exact hd
      · exact ih _ h c hc
    · simp [digitsValue, hd] at h

theorem digitsValue_plain (ds : List Char) (acc n : Nat) (h : digitsValue ds acc = some n) :
    ∀ c ∈ ds, c ≠ ':' ∧ isSpace c = false :=
  fun c hc => isDigit_plain c (digitsValue_isDigit ds acc n h c hc)

theorem decAtoi_plain : TokenSyntax decAtoi := by
  intro s a h c hc
  unfold decAtoi at h
  split at h
  · cases h
  · rename_i ds hs
    rw [hs] at hc
    split at h
    · cases h
    · obtain ⟨n, hn, _⟩ := Option.bind_eq_some.1 h
      rcases List.mem_cons.1 hc with hc | hc
      · rw [hc]
        exact ⟨by decide, by decide⟩
      · exact digitsValue_plain ds 0 n hn c hc
  · rename_i ds hs
    rw [hs] at hc
    split at h
    · cases h
    · obtain ⟨n, hn, _⟩ := Option.bind_eq_some.1 h
      rcases List.mem_cons.1 hc with hc | hc
      · rw [hc]
        exact ⟨by decide, by decide⟩
      · exact digitsValue_plain ds 0 n hn c hc
  · obtain ⟨n, hn, _⟩ := Option.bind_eq_some.1 h
    exact digitsValue_plain _ 0 n hn c hc

theorem splitChars_ne_nil (sep : Char) (l : List Char) : splitChars sep l ≠ [] := by
  cases l with
  | nil => simp [splitChars]
  | cons c rest =>
    by_cases hc : c = sep
    · simp [splitChars, hc]
    · simp only [splitChars, hc, if_false]
      split <;> simp

theorem joinChars_splitChars (sep : Char) (l : List Char) :
    joinChars sep (splitChars sep l) = l := by
  induction l with
  | nil => rfl
  | cons c rest ih =>
    by_cases hc : c = sep
    · simp only [splitChars, hc, if_true]
      cases hs : splitChars sep rest with
      | nil => exact absurd hs (splitChars_ne_nil sep rest)
      | cons w ws =>
        rw [hs] at ih
        show [] ++ sep :: joinChars sep (w :: ws) = sep :: rest
        rw [ih]
        rfl
    · simp only [splitChars, hc, if_false]
      cases hs : splitChars sep rest with
      | nil => exact absurd hs (splitChars_ne_nil sep rest)
      | cons w ws =>
        rw [hs] at ih
        cases ws with
        | nil =>
          simp only [joinChars] at ih ⊢
          rw [ih]
        | cons w' ws' =>
          have h1 : joinChars sep (w :: w' :: ws') = w ++ sep :: joinChars sep (w' :: ws') := rfl
          have h2 : joinChars sep ((c :: w) :: w' :: ws') =
              (c :: w) ++ sep :: joinChars sep (w' :: ws') := rfl
          rw [h1] at ih
          rw [h2, ← ih]
          rfl

theorem decFloat_plain : TokenSyntax (decFloat : String → Option R) := by
  intro s a h c hc
  have hj := joinChars_splitChars '.' s.data
  unfold decFloat at h
  split at h
  · rename_i x hs
    rw [hs] at hj
    simp only [joinChars] at hj
    split at h
    · cases h
    · cases hn : digitsValue x 0 with
      | none =>
        rw [hn] at h
        cases h
      | some n =>
        rw [← hj] at hc
        exact digitsValue_plain _ 0 n hn c hc
  · rename_i x y hs
    rw [hs] at hj
    have hj' : x ++ '.' :: y = s.data := hj
    split at h
    · cases h
    · split at h
      · rename_i n m hn hm
        rw [← hj'] at hc
        simp only [List.mem_append, List.mem_cons] at hc
        rcases hc with hc | hc | hc
        · exact digitsValue_plain _ 0 n hn c hc
        · rw [hc]
          exact ⟨by decide, by decide⟩
        · exact digitsValue_plain _ 0 m hm c hc
      · cases h
  · cases h

theorem decFloat_half : (decFloat "0.5" : Option ℝ) = some 0.5 := by
  simp [decFloat, splitChars, digitsValue]
  norm_num

theorem decFloat_seven_tenths : (decFloat "0.7" : Option ℝ) = some 0.7 := by
  simp [decFloat, splitChars, digitsValue]
  norm_num

theorem readlineLoop_delivery (chunks : List String) (last : String) (rest : Reader)
    (ln : String) :
    readlineLoop (chunks.map (fun c => { line := c, isPrefix := true, err := none }) ++
        { line := last, isPrefix := false, err := none } :: rest) ln =
      ((chunks.foldl (fun ln c => ln ++ c) ln ++ last, none), rest) := by
  induction chunks generalizing ln with
  | nil => simp [readlineLoop]
  | cons c t ih => simp [readlineLoop, ih]

/-- A call of `readline` on a line that is delivered completely gives the line,
whatever the number of chunks. -/
theorem readline_delivery (d : Delivery) (rest : Reader) :
    readline (d.reads ++ rest) = ((d.line, none), rest) := by
  have h : d.reads ++ rest =
      d.chunks.map (fun c => { line := c, isPrefix := true, err := none }) ++
        { line := d.last, isPrefix := false, err := none } :: rest := by
    simp [Delivery.reads]
  rw [readline, h, readlineLoop_delivery]
  rfl

theorem chunkReader_cons (d : Delivery) (ds : List Delivery) :
    chunkReader (d :: ds) = d.reads ++ chunkReader ds := by
  simp [chunkReader]

theorem length_le_chunkReader (ds : List Delivery) : ds.length ≤ (chunkReader ds).length := by
  induction ds with
  | nil => simp
  | cons d rest ih =>
    rw [chunkReader_cons, List.length_append, List.length_cons]
    have : 1 ≤ d.reads.length := by simp [Delivery.reads]
    omega

/-- The loop of `LoadTraning` on lines that are delivered completely, followed by the
end of the stream: the records of the lines that are not skipped, in order. -/
theorem loadLoop_chunks {S : Type} (atoi : String → Option Int) (parseFloat : String → Option S)
    (ds : List Delivery) (fuel : Nat) (docs : List (DocTraning S)) (hf : ds.length < fuel) :
    loadLoop atoi parseFloat fuel (chunkReader ds) docs =
      docs ++ (ds.map Delivery.line).filterMap (parseLine atoi parseFloat) := by
  induction ds generalizing fuel docs with
  | nil =>
    cases fuel with
    | zero => simp at hf
    | succ fuel => simp [chunkReader, loadLoop, readline, readlineLoop]
  | cons d rest ih =>
    cases fuel with
    | zero => simp at hf
    | succ fuel =>
      have hf' : rest.length < fuel := by simpa using hf
      rw [loadLoop, chunkReader_cons, readline_delivery]
      cases hp : parseLine atoi parseFloat d.line with
      | none => simp [ih fuel docs hf', List.filterMap_cons, hp]
      | some doc => simp [ih fuel _ hf', List.filterMap_cons, hp]

/-- The result of `LoadTraning` on a stream whose lines are delivered completely. -/
theorem loadTraning_chunks {S : Type} (atoi : String → Option Int)
    (parseFloat : String → Option S) (ds : List Delivery) :
    LoadTraning atoi parseFloat (chunkReader ds) =
      (ds.map Delivery.line).filterMap (parseLine atoi parseFloat) := by
  rw [LoadTraning, loadLoop_chunks atoi parseFloat ds _ []
    (Nat.lt_succ_of_le (length_le_chunkReader ds))]
  simp

/-- Claim C14 as stated fails, in two ways. In the well-formed line `1 3:0.5 3:0.7`
the first pair has index 3 and weight 0.5, and the map of the record sends 3 to 0.7.
And when the reader gives the well-formed last line `1 3:0.5 4:0.7` with `isPrefix`
set and then the end of the stream, `LoadTraning` returns no record for it. -/
theorem well_formed_lines_claim_fails :
    LineText.Parses decAtoi (decFloat : String → Option ℝ) (repeatedIndexLine : LineText ℝ) ∧
    LineText.text (repeatedIndexLine : LineText ℝ) = "1 3:0.5 3:0.7" ∧
    (LoadTraning decAtoi (decFloat : String → Option ℝ)
      (linesReader ["1 3:0.5 3:0.7"])).map (fun doc => doc.lemmas.get? 3) = [some 0.7] ∧
    (0.7 : ℝ) ≠ 0.5 ∧
    LineText.Parses decAtoi (decFloat : String → Option ℝ) (distinctIndexLine : LineText ℝ) ∧
    LineText.text (distinctIndexLine : LineText ℝ) = "1 3:0.5 4:0.7" ∧
    LoadTraning decAtoi (decFloat : String → Option ℝ)
      [{ line := "1 3:0.5 4:0.7", isPrefix := true, err := none }] = [] := by
  have hs : Split "1 3:0.5 3:0.7" ' ' = ["1", "3:0.5", "3:0.7"] := by decide
  have a1 : decAtoi "1" = some 1 := by decide
  have a3 : decAtoi "3" = some 3 := by decide
  have a4 : decAtoi "4" = some 4 := by decide
  have t5 : TrimSpace "3:0.5" = "3:0.5" := by decide
  have t7 : TrimSpace "3:0.7" = "3:0.7" := by decide
  have s5 : Split "3:0.5" ':' = ["3", "0.5"] := by decide
  have s7 : Split "3:0.7" ':' = ["3", "0.7"] := by decide
  have l5 : ¬ "3:0.5".length = 0 := by decide
  have l7 : ¬ "3:0.7".length = 0 := by decide
  refine ⟨⟨a1, by simp [repeatedIndexLine], ?_⟩, by decide, ?_, by norm_num,
    ⟨a1, by simp [distinctIndexLine], ?_⟩, by decide, rfl⟩
  · intro p hp
    simp only [repeatedIndexLine, List.mem_cons, List.mem_singleton, List.not_mem_nil,
      or_false] at hp
    rcases hp with rfl | rfl
    · exact ⟨a3, decFloat_half⟩
    · exact ⟨a3, decFloat_seven_tenths⟩
  · simp [LoadTraning, loadLoop, linesReader, readline, readlineLoop, parseLine, lemmaLoop, hs,
      a1, a3, t5, t7, s5, s7, l5, l7, decFloat_half, decFloat_seven_tenths, GoMap.set,
      GoMap.get?]
  · intro p hp
    simp only [distinctIndexLine, List.mem_cons, List.mem_singleton, List.not_mem_nil,
      or_false] at hp
    rcases hp with rfl | rfl
    · exact ⟨a3, decFloat_half⟩
    · exact ⟨a4, decFloat_seven_tenths⟩

/-- Claim C14, amended: for a stream of well-formed lines that ends normally and
whose reader delivers every line completely, in one result or in chunks with
`isPrefix` set followed by a result that completes the line, `LoadTraning` returns
one record per line, in the order of the lines, each made from its own line alone.
The record has the label of the line; the keys of its map are the indices of the
line; the map sends an index to the weight of the last pair that has it; and when
the indices of the line are distinct, it sends every index to its weight. -/
theorem loadTraning_well_formed {S : Type} (atoi : String → Option Int)
    (parseFloat : String → Option S) (hA : TokenSyntax atoi) (hF : TokenSyntax parseFloat)
    (ls : List (LineText S)) (ds : List Delivery)
    (hd : ds.map Delivery.line = ls.map LineText.text)
    (hwf : ∀ l ∈ ls, l.Parses atoi parseFloat) :
    LoadTraning atoi parseFloat (chunkReader ds) = ls.map LineText.record ∧
    LoadTraning atoi parseFloat (linesReader (ls.map LineText.text)) = ls.map LineText.record ∧
    ∀ l ∈ ls, l.record.clazz = l.label ∧
      (∀ k, k ∈ l.record.lemmas.keys ↔ ∃ p ∈ l.pairs, p.idx = k) ∧
      (∀ pre p post, l.pairs = pre ++ p :: post → (∀ q ∈ post, q.idx ≠ p.idx) →
        l.record.lemmas.get? p.idx = some p.weight) ∧
      ((l.pairs.map PairText.idx).Nodup →
        ∀ p ∈ l.pairs, l.record.lemmas.get? p.idx = some p.weight) := by
  have hlast : ∀ l : LineText S, ∀ pre p post, l.pairs = pre ++ p :: post →
      (∀ q ∈ post, q.idx ≠ p.idx) → l.record.lemmas.get? p.idx = some p.weight := by
    intro l pre p post hl hq
    simp only [LineText.record, hl, List.map_append, List.map_cons]
    apply mapOfPairs_get?_last _ _ (p.idx, p.weight)
    intro r hr
    obtain ⟨q, hqm, rfl⟩ := List.mem_map.1 hr
    exact hq q hqm
  have hrec : (ls.map LineText.text).filterMap (parseLine atoi parseFloat) =
      ls.map LineText.record := by
    clear hd
    induction ls with
    | nil => rfl
    | cons l rest ih =>
      rw [List.map_cons, List.filterMap_cons,
        parseLine_text atoi parseFloat hA hF l (hwf l (List.mem_cons_self _ _))]
      simp only [List.map_cons, List.cons.injEq, true_and]
      exact ih fun x hx => hwf x (List.mem_cons_of_mem _ hx)
  refine ⟨?_, ?_, ?_⟩
  · rw [loadTraning_chunks, hd, hrec]
  · rw [loadTraning_lines, hrec]
  · intro l _
    refine ⟨rfl, ?_, hlast l, ?_⟩
    · intro k
      simp only [LineText.record, mapOfPairs]
      rw [mapOfPairs_keys]
      simp [GoMap.keys]
    · intro nd p hp
      obtain ⟨pre, post, hpp⟩ := List.append_of_mem hp
      apply hlast l pre p post hpp
      intro q hq heq
      rw [hpp, List.map_append, List.map_cons] at nd
      have h1 := (List.nodup_append.1 nd).2.1
      have h2 := (List.nodup_cons.1 h1).1
      exact h2 (heq ▸ List.mem_map_of_mem PairText.idx hq)

theorem scenario_line_parses :
    ∀ l ∈ [(distinctIndexLine : LineText ℝ)], l.Parses decAtoi decFloat := by
  intro l hl
  rw [List.mem_singleton] at hl
  subst hl
  refine ⟨by decide, by simp [distinctIndexLine], ?_⟩
  intro p hp
  simp only [distinctIndexLine, List.mem_cons, List.mem_singleton, List.not_mem_nil,
    or_false] at hp
  rcases hp with rfl | rfl
  · exact ⟨by decide, decFloat_half⟩
  · exact ⟨by decide, decFloat_seven_tenths⟩

theorem scenario_delivery_line :
    [distinctIndexDelivery].map Delivery.line =
      [(distinctIndexLine : LineText ℝ)].map LineText.text := by
  decide

theorem loadTraning_well_formed_witness :
    TokenSyntax decAtoi ∧ TokenSyntax (decFloat : String → Option ℝ) ∧
    [distinctIndexDelivery].map Delivery.line =
      [(distinctIndexLine : LineText ℝ)].map LineText.text ∧
    (∀ l ∈ [(distinctIndexLine : LineText ℝ)], l.Parses decAtoi decFloat) ∧
    LoadTraning decAtoi (decFloat : String → Option ℝ) (chunkReader [distinctIndexDelivery]) =
      [(distinctIndexLine : LineText ℝ)].map LineText.record :=
  ⟨decAtoi_plain, decFloat_plain, scenario_delivery_line, scenario_line_parses,
    (loadTraning_well_formed decAtoi decFloat decAtoi_plain decFloat_plain _ _
      scenario_delivery_line scenario_line_parses).1⟩

/-! ## The classifier: claim C19 -/

theorem truncToInt_nonneg [FloorRing R] {x : R} (h : 0 ≤ x) :
    0 ≤ truncToInt x ∧ (truncToInt x : R) ≤ x ∧ x < (truncToInt x : R) + 1 := by
  simp only [truncToInt, h, if_true]
  exact ⟨Int.floor_nonneg.2 h, Int.floor_le x, Int.lt_floor_add_one x⟩

theorem truncToInt_neg [FloorRing R] {x : R} (h : x < 0) :
    truncToInt x ≤ 0 ∧ x ≤ (truncToInt x : R) ∧ (truncToInt x : R) - 1 < x := by
  have h' : ¬ 0 ≤ x := not_le.2 h
  simp only [truncToInt, h', if_false]
  refine ⟨Int.ceil_le.2 (by simpa using h.le), Int.le_ceil x, ?_⟩
  have := Int.ceil_lt_add_one x
  linarith

/-- Claim C19: the classifier gives `Label` of the truncated prediction for the
vector of the text, where the truncation is toward zero; it gives the empty string
when no class has the truncated index, which in a corpus built by `NewCorpus` is the
case for every index below 1 or above the number of classes. -/
theorem classifier_spec [FloorRing R] (sqrt : R → R) (ρ : RangeOrder) (cp : Corpus R)
    (Predict : GoMap Int (F64 R) → R) (txt : String) :
    cp.classifier sqrt ρ Predict txt =
      cp.Label ρ (truncToInt (Predict (cp.Vector sqrt ρ txt))) ∧
    (∀ x : R, 0 ≤ x → 0 ≤ truncToInt x ∧ (truncToInt x : R) ≤ x ∧ x < (truncToInt x : R) + 1) ∧
    (∀ x : R, x < 0 → truncToInt x ≤ 0 ∧ x ≤ (truncToInt x : R) ∧ (truncToInt x : R) - 1 < x) ∧
    ((∀ e ∈ cp.classes, e.2 ≠ truncToInt (Predict (cp.Vector sqrt ρ txt))) →
      cp.classifier sqrt ρ Predict txt = "") ∧
    (∀ (log : R → R) (loadDictionary : List String → String → List String)
      (classes features : List String) (docs : List (DocTraning R)),
      cp = NewCorpus log loadDictionary classes features docs →
      (truncToInt (Predict (cp.Vector sqrt ρ txt)) < 1 ∨
        (classes.length : Int) < truncToInt (Predict (cp.Vector sqrt ρ txt))) →
      cp.classifier sqrt ρ Predict txt = "") := by
  refine ⟨rfl, fun x hx => truncToInt_nonneg hx, fun x hx => truncToInt_neg hx, ?_, ?_⟩
  · intro h
    apply scanIndex_of_not_mem
    intro e he
    exact h e ((ρ.perm cp.classes).mem_iff.1 he)
  · intro log loadDictionary classes features docs hcp hi
    subst hcp
    rw [Corpus.classifier, Corpus.Label, newCorpus_classes]
    exact scan_out_of_range ρ (classLoop_indexMap_zero classes) hi

theorem truncToInt_example : truncToInt (-(5 / 2) : ℝ) = -2 := by
  have h : ¬ (0 : ℝ) ≤ -(5 / 2) := by norm_num
  simp only [truncToInt, h, if_false]
  rw [Int.ceil_eq_iff]
  norm_num

theorem classifier_spec_witness :
    (truncToInt ((fun _ => -(5 / 2) : GoMap Int (F64 ℝ) → ℝ)
        ((scenarioCorpus Real.log wordSegmenter).Vector Real.sqrt RangeOrder.stored "buy now"))
          < 1 ∨
      ((["spam", "ham"].length : Nat) : Int) <
        truncToInt ((fun _ => -(5 / 2) : GoMap Int (F64 ℝ) → ℝ)
          ((scenarioCorpus Real.log wordSegmenter).Vector Real.sqrt RangeOrder.stored
            "buy now"))) ∧
    (scenarioCorpus Real.log wordSegmenter).classifier Real.sqrt RangeOrder.stored
      (fun _ => -(5 / 2)) "buy now" = "" :=
  have h : truncToInt ((fun _ => -(5 / 2) : GoMap Int (F64 ℝ) → ℝ)
        ((scenarioCorpus Real.log wordSegmenter).Vector Real.sqrt RangeOrder.stored "buy now"))
          < 1 ∨
      ((["spam", "ham"].length : Nat) : Int) <
        truncToInt ((fun _ => -(5 / 2) : GoMap Int (F64 ℝ) → ℝ)
          ((scenarioCorpus Real.log wordSegmenter).Vector Real.sqrt RangeOrder.stored
            "buy now")) := by
    left
    show truncToInt (-(5 / 2) : ℝ) < 1
    rw [truncToInt_example]
    decide
  ⟨h, (classifier_spec Real.sqrt RangeOrder.stored (scenarioCorpus Real.log wordSegmenter)
    (fun _ => -(5 / 2)) "buy now").2.2.2.2 Real.log wordSegmenter ["spam", "ham"]
      ["buy", "now"] scenarioDocs rfl h⟩

/-! ## Relative frequencies: claim C20 -/

theorem countP_flatten_replicate {α : Type} (p : α → Bool) (l : List α) (m : Nat) :
    List.countP p (List.replicate m l).flatten = m * List.countP p l := by
  induction m with
  | zero => simp
  | succ m ih =>
    rw [List.replicate_succ, List.flatten_cons, List.countP_append, ih]
    ring

/-- The vector depends on the text only through the tokens that are feature words. -/
theorem vector_congr_filter (sqrt : R → R) (ρ : RangeOrder) (cp : Corpus R) (data data' : String)
    (h : (cp.sgter data').filter (fun tok => (cp.features.get? tok).isSome) =
      (cp.sgter data).filter fun tok => (cp.features.get? tok).isSome) :
    cp.Vector sqrt ρ data' = cp.Vector sqrt ρ data := by
  have hc : cp.counts data' = cp.counts data := by
    rw [Corpus.counts, Corpus.counts, countLoop_filter, h, ← countLoop_filter]
  simp only [Corpus.Vector, Corpus.scalar, Corpus.tfidfs, hc]

/-- The vector of a token sequence repeated `m` times is the vector of the
sequence. -/
theorem vector_repeat (sqrt : R → R) (ρ : RangeOrder) (cp : Corpus R) (data data' : String)
    (m : Nat) (hm : 1 ≤ m) (h : cp.sgter data' = (List.replicate m (cp.sgter data)).flatten)
    (k : Int) : (cp.Vector sqrt ρ data').get? k = (cp.Vector sqrt ρ data).get? k := by
  have hm0 : (m : R) ≠ 0 := by
    have : 0 < m := hm
    exact_mod_cast this.ne'
  have hcount : ∀ j, refCount cp.features (cp.sgter data') j =
      m * refCount cp.features (cp.sgter data) j := by
    intro j
    rw [h, refCount, refCount, countP_flatten_replicate]
  have htotal : refTotal cp.features (cp.sgter data') =
      m * refTotal cp.features (cp.sgter data) := by
    rw [h, refTotal, refTotal, countP_flatten_replicate]
  have hpos : ∀ j, 0 < refCount cp.features (cp.sgter data') j ↔
      0 < refCount cp.features (cp.sgter data) j := by
    intro j
    rw [hcount]
    constructor
    · intro hj
      exact Nat.pos_of_mul_pos_left hj
    · intro hj
      exact Nat.mul_pos hm hj
  have htf : ∀ j, refTfidf cp (cp.sgter data') j = refTfidf cp (cp.sgter data) j := by
    intro j
    rw [refTfidf, refTfidf, hcount, htotal]
    push_cast
    rw [mul_div_mul_left _ _ hm0]
  have hkeys : (refKeys cp.features (cp.sgter data')).Perm
      (refKeys cp.features (cp.sgter data)) := by
    have nd1 : (refKeys cp.features (cp.sgter data')).Nodup := List.nodup_dedup _
    have nd2 : (refKeys cp.features (cp.sgter data)).Nodup := List.nodup_dedup _
    rw [List.perm_ext_iff_of_nodup nd1 nd2]
    intro j
    rw [mem_refKeys, mem_refKeys, hpos]
  have hsum : (cp.tfidfs ρ data').2 = (cp.tfidfs ρ data).2 := by
    rw [tfidfs_sum_ref, tfidfs_sum_ref]
    simp only [htf]
    exact (hkeys.map _).sum_eq
  rw [vector_get?, vector_get?, tfidfs_get?, tfidfs_get?, Corpus.scalar, Corpus.scalar, hsum,
    htf k]
  by_cases hk : 0 < refCount cp.features (cp.sgter data) k
  · rw [if_pos hk, if_pos ((hpos k).2 hk)]
  · rw [if_neg hk, if_neg fun h' => hk ((hpos k).1 h')]

/-- When `scalar` is positive the division by `total` cancels. -/
theorem vector_get?_relative (ρ : RangeOrder) (cp : Corpus ℝ) (data : String)
    (hs : 0 < cp.scalar Real.sqrt ρ data) (k : Int) :
    (cp.Vector Real.sqrt ρ data).get? k =
      if 0 < refCount cp.features (cp.sgter data) k then
        some (F64.fin ((refCount cp.features (cp.sgter data) k : ℝ) * cp.transIDF.getD k 0 /
          Real.sqrt ((refKeys cp.features (cp.sgter data)).map fun j =>
            ((refCount cp.features (cp.sgter data) j : ℝ) * cp.transIDF.getD j 0) ^ 2).sum))
      else none := by
  rw [vector_get?, tfidfs_get?]
  by_cases hk : 0 < refCount cp.features (cp.sgter data) k
  · rw [if_pos hk, if_pos hk, Option.map_some', fdiv_of_ne _ hs.ne']
    have hT : 0 < refTotal cp.features (cp.sgter data) := by
      obtain ⟨tok, htok, hp⟩ := List.countP_pos_iff.1 hk
      exact List.countP_pos_iff.2 ⟨tok, htok, by
        have : cp.features.get? tok = some k := by simpa using hp
        simp [this]⟩
    have hT' : (0 : ℝ) < (refTotal cp.features (cp.sgter data) : ℝ) := by exact_mod_cast hT
    have hsum : (cp.tfidfs ρ data).2 =
        ((refKeys cp.features (cp.sgter data)).map fun j =>
          ((refCount cp.features (cp.sgter data) j : ℝ) * cp.transIDF.getD j 0) ^ 2).sum /
            (refTotal cp.features (cp.sgter data) : ℝ) ^ 2 := by
      rw [tfidfs_sum_ref, div_eq_mul_inv, ← List.sum_map_mul_right]
      congr 1
      apply List.map_congr_left
      intro j _
      rw [refTfidf]
      field_simp
    have hnn : (0 : ℝ) ≤ ((refKeys cp.features (cp.sgter data)).map fun j =>
        ((refCount cp.features (cp.sgter data) j : ℝ) * cp.transIDF.getD j 0) ^ 2).sum := by
      apply List.sum_nonneg
      intro x hx
      obtain ⟨j, _, rfl⟩ := List.mem_map.1 hx
      positivity
    have hsc : cp.scalar Real.sqrt ρ data =
        Real.sqrt ((refKeys cp.features (cp.sgter data)).map fun j =>
          ((refCount cp.features (cp.sgter data) j : ℝ) * cp.transIDF.getD j 0) ^ 2).sum /
            (refTotal cp.features (cp.sgter data) : ℝ) := by
      rw [Corpus.scalar, hsum, Real.sqrt_div hnn, Real.sqrt_sq hT'.le]
    have hroot : Real.sqrt ((refKeys cp.features (cp.sgter data)).map fun j =>
        ((refCount cp.features (cp.sgter data) j : ℝ) * cp.transIDF.getD j 0) ^ 2).sum ≠ 0 := by
      intro h0
      rw [hsc, h0, zero_div] at hs
      exact lt_irrefl _ hs
    rw [hsc, refTfidf]
    congr 2
    field_simp
  · rw [if_neg hk, if_neg hk, Option.map_none']

/-- Claim C20: the vector depends only on the relative frequencies of the matched
features. When `scalar` is positive the value at a counted index is
`count[k] * idf[k]` divided by the square root of the sum of the squares of these
numbers; a token sequence repeated `m ≥ 1` times gives the same vector; and a text
with the same feature words in the same order, with other tokens between them,
gives the same vector. -/
theorem vector_relative_frequency (ρ : RangeOrder) (cp : Corpus ℝ) (data : String) :
    (0 < cp.scalar Real.sqrt ρ data → ∀ k,
      (cp.Vector Real.sqrt ρ data).get? k =
        if 0 < refCount cp.features (cp.sgter data) k then
          some (F64.fin ((refCount cp.features (cp.sgter data) k : ℝ) * cp.transIDF.getD k 0 /
            Real.sqrt ((refKeys cp.features (cp.sgter data)).map fun j =>
              ((refCount cp.features (cp.sgter data) j : ℝ) * cp.transIDF.getD j 0) ^ 2).sum))
        else none) ∧
    (∀ (data' : String) (m : Nat), 1 ≤ m →
      cp.sgter data' = (List.replicate m (cp.sgter data)).flatten →
      ∀ k, (cp.Vector Real.sqrt ρ data').get? k = (cp.Vector Real.sqrt ρ data).get? k) ∧
    (∀ data' : String,
      (cp.sgter data').filter (fun tok => (cp.features.get? tok).isSome) =
        (cp.sgter data).filter (fun tok => (cp.features.get? tok).isSome) →
      cp.Vector Real.sqrt ρ data' = cp.Vector Real.sqrt ρ data) :=
  ⟨vector_get?_relative ρ cp data,
    fun data' m hm h k => vector_repeat Real.sqrt ρ cp data data' m hm h k,
    fun data' h => vector_congr_filter Real.sqrt ρ cp data data' h⟩

theorem scenario_scalar_pos :
    0 < (scenarioCorpus Real.log wordSegmenter).scalar Real.sqrt RangeOrder.stored
      "buy buy now" :=
  (unit_norm_of_nonzero RangeOrder.stored _ "buy buy now" scenario_tfidf_nonzero).1

theorem vector_relative_frequency_witness :
    0 < (scenarioCorpus Real.log wordSegmenter).scalar Real.sqrt RangeOrder.stored
      "buy buy now" ∧
    ((scenarioCorpus Real.log wordSegmenter).Vector Real.sqrt RangeOrder.stored
        "buy buy now").get? 1 =
      (if 0 < refCount (scenarioCorpus Real.log wordSegmenter).features
          ((scenarioCorpus Real.log wordSegmenter).sgter "buy buy now") 1 then
        some (F64.fin ((refCount (scenarioCorpus Real.log wordSegmenter).features
            ((scenarioCorpus Real.log wordSegmenter).sgter "buy buy now") 1 : ℝ) *
              (scenarioCorpus Real.log wordSegmenter).transIDF.getD 1 0 /
          Real.sqrt ((refKeys (scenarioCorpus Real.log wordSegmenter).features
              ((scenarioCorpus Real.log wordSegmenter).sgter "buy buy now")).map fun j =>
            ((refCount (scenarioCorpus Real.log wordSegmenter).features
              ((scenarioCorpus Real.log wordSegmenter).sgter "buy buy now") j : ℝ) *
                (scenarioCorpus Real.log wordSegmenter).transIDF.getD j 0) ^ 2).sum))
      else none) ∧
    (scenarioCorpus Real.log wordSegmenter).sgter "buy buy now buy buy now" =
      (List.replicate 2 ((scenarioCorpus Real.log wordSegmenter).sgter "buy buy now")).flatten ∧
    ((scenarioCorpus Real.log wordSegmenter).Vector Real.sqrt RangeOrder.stored
        "buy buy now buy buy now").get? 1 =
      ((scenarioCorpus Real.log wordSegmenter).Vector Real.sqrt RangeOrder.stored
        "buy buy now").get? 1 ∧
    (scenarioCorpus Real.log fun _ text => splitBlanks text.data []).Vector Real.sqrt
        RangeOrder.reversed "buy it buy it now" =
      (scenarioCorpus Real.log fun _ text => splitBlanks text.data []).Vector Real.sqrt
        RangeOrder.reversed "buy buy now" :=
  ⟨scenario_scalar_pos,
    (vector_relative_frequency RangeOrder.stored (scenarioCorpus Real.log wordSegmenter)
      "buy buy now").1 scenario_scalar_pos 1,
    by decide,
    (vector_relative_frequency RangeOrder.stored (scenarioCorpus Real.log wordSegmenter)
      "buy buy now").2.1 "buy buy now buy buy now" 2 (by decide) (by decide) 1,
    (vector_relative_frequency RangeOrder.reversed
      (scenarioCorpus Real.log fun _ text => splitBlanks text.data [])
      "buy buy now").2.2 "buy it buy it now" (by decide)⟩

/-! ## The loop of `LoadTraning` never runs out of fuel -/

/-- A call of `readline` that gives no error uses up at least one result of the
reader. -/
theorem readlineLoop_length (br : Reader) (ln : String)
    (h : (readlineLoop br ln).1.2 = none) : (readlineLoop br ln).2.length < br.length := by
  induction br generalizing ln with
  | nil => simp [readlineLoop] at h
  | cons r rest ih =>
    by_cases hc : (r.isPrefix && r.err.isNone) = true
    · simp only [readlineLoop, hc, if_true] at h ⊢
      exact Nat.lt_succ_of_lt (ih _ h)
    · simp only [readlineLoop, hc] at h ⊢
      simp

/-- The result of the loop of `LoadTraning` is the same for every amount of fuel
above the length of the reader: the fuel that `LoadTraning` gives is never used up. -/
theorem loadLoop_fuel {S : Type} (atoi : String → Option Int) (parseFloat : String → Option S)
    (fuel₁ fuel₂ : Nat) (br : Reader) (docs : List (DocTraning S))
    (h₁ : br.length < fuel₁) (h₂ : br.length < fuel₂) :
    loadLoop atoi parseFloat fuel₁ br docs = loadLoop atoi parseFloat fuel₂ br docs := by
  induction fuel₁ generalizing fuel₂ br docs with
  | zero => exact absurd h₁ (Nat.not_lt_zero _)
  | succ n ih =>
    cases fuel₂ with
    | zero => exact absurd h₂ (Nat.not_lt_zero _)
    | succ k =>
      rw [loadLoop, loadLoop]
      cases hr : readline br with
      | mk res br' =>
        obtain ⟨line, err⟩ := res
        cases err with
        | some e => rfl
        | none =>
          have hlen : br'.length < br.length := by
            have := readlineLoop_length br "" (by
              have : (readlineLoop br "").1.2 = (readline br).1.2 := rfl
              rw [this, hr])
            have h2 : (readlineLoop br "").2 = br' := by
              have : (readlineLoop br "").2 = (readline br).2 := rfl
              rw [this, hr]
            rwa [h2] at this
          have hn : br'.length < n := by omega
          have hk : br'.length < k := by omega
          simp only []
          cases parseLine atoi parseFloat line with
          | none => exact ih k br' docs hn hk
          | some doc => exact ih k br' _ hn hk

end Svm
